import Mathlib

/-!
Shallow embedding of the Enclave Memory Manager core of
`sgx_trts/src/emm` (alloc.rs, vmmgr.rs, ocall.rs): the reserve
byte allocator and the virtual-memory manager over EMA interval lists.
Machine integers (usize) are modelled as Nat; the code never relies on
wrap-around in the embedded paths.  Fallible operations return
Except OsError; operations that mutate the manager also return the
post-call state so that error paths expose their final state.
-/

set_option maxRecDepth 4096

/-- SE_PAGE_SIZE from arch: 4096. -/
def SE_PAGE_SIZE : Nat := 4096

/-- SE_PAGE_SHIFT from arch: 12. -/
def SE_PAGE_SHIFT : Nat := 12

/-- alloc.rs: size of fixed static memory for the static allocator. -/
def STATIC_MEM_SIZE : Nat := 65536

/-- alloc.rs: size of initial reserve memory for the reserve allocator. -/
def INIT_MEM_SIZE : Nat := 65536

/-- alloc.rs: size of guard pages. -/
def GUARD_SIZE : Nat := 0x8000

/-- alloc.rs: max allocated size of the reserve allocator. -/
def MAX_EMALLOC_SIZE : Nat := 0x10000000

/-- alloc.rs: number of exact-size free lists. -/
def NUM_EXACT_LIST : Nat := 0x100

/-- alloc.rs: HEADER_SIZE = size_of::<usize>() = 8 on x86_64. -/
def HEADER_SIZE : Nat := 8

/-- alloc.rs: granularity of exact lists. -/
def EXACT_MATCH_INCREMENT : Nat := 8

/-- alloc.rs: minimal block footprint. -/
def MIN_BLOCK_SIZE : Nat := 0x10

/-- alloc.rs: MAX_EXACT_SIZE = MIN_BLOCK_SIZE + EXACT_MATCH_INCREMENT * (NUM_EXACT_LIST - 1). -/
def MAX_EXACT_SIZE : Nat := MIN_BLOCK_SIZE + EXACT_MATCH_INCREMENT * (NUM_EXACT_LIST - 1)

/-- size_of::<Chunk>() on x86_64: four 8-byte words (base, size, used, link). -/
def CHUNK_HEADER_SIZE : Nat := 32

/-- The round_to! macro: round n up to a multiple of the power-of-two a
(`(n + a - 1) & !(a - 1)`). -/
def round_to (n a : Nat) : Nat := (n + a - 1) / a * a

/-- The trim_to! macro: round n down to a multiple of the power-of-two a
(`n & !(a - 1)`). -/
def trim_to (n a : Nat) : Nat := n / a * a

/-- is_page_aligned! macro. -/
def is_page_aligned (n : Nat) : Bool := n % SE_PAGE_SIZE == 0

/-- Error codes from sgx_tlibc_sys used by the core. -/
inductive OsError where
  | EPERM
  | ENOMEM
  | EACCES
  | EFAULT
  | EEXIST
  | EINVAL
deriving DecidableEq, Repr

/-- page.rs AllocFlags bitflags, one Bool per bit. -/
structure AllocFlags where
  reserved : Bool := false
  commit_now : Bool := false
  commit_on_demand : Bool := false
  growsdown : Bool := false
  growsup : Bool := false
  fixed : Bool := false
  system : Bool := false
deriving DecidableEq, Repr

/-- Bitwise or of two AllocFlags values. -/
def AllocFlags.union (a b : AllocFlags) : AllocFlags where
  reserved := a.reserved || b.reserved
  commit_now := a.commit_now || b.commit_now
  commit_on_demand := a.commit_on_demand || b.commit_on_demand
  growsdown := a.growsdown || b.growsdown
  growsup := a.growsup || b.growsup
  fixed := a.fixed || b.fixed
  system := a.system || b.system

def AllocFlags.RESERVED : AllocFlags := { reserved := true }

def AllocFlags.COMMIT_NOW : AllocFlags := { commit_now := true }

def AllocFlags.COMMIT_ON_DEMAND : AllocFlags := { commit_on_demand := true }

def AllocFlags.FIXED : AllocFlags := { fixed := true }

def AllocFlags.SYSTEM : AllocFlags := { system := true }

/-- Page types (page.rs). -/
inductive PageType where
  | none
  | reg
  | tcs
  | trim
  | first
deriving DecidableEq, Repr

/-- Protection flags R/W/X (page.rs ProtFlags). -/
structure ProtFlags where
  r : Bool := false
  w : Bool := false
  x : Bool := false
deriving DecidableEq, Repr

def ProtFlags.NONE : ProtFlags := {}

def ProtFlags.R : ProtFlags := { r := true }

def ProtFlags.RW : ProtFlags := { r := true, w := true }

/-- PageInfo: page type plus protection (page.rs). -/
structure PageInfo where
  typ : PageType
  prot : ProtFlags
deriving DecidableEq, Repr

/-- AllocType from alloc.rs: which heap owns an EMA node. -/
inductive AllocType where
  | Static
  | Reserve
deriving DecidableEq, Repr

/-- RangeType from vmmgr.rs: which of the two interval lists is used. -/
inductive RangeType where
  | Rts
  | User
deriving DecidableEq, Repr

/-- Modelled from the spec: the enclave memory layout consulted by the
enclave-bound predicates (`MmLayout`, `is_within_enclave`,
`is_within_rts_range`, `is_within_user_range` live outside src/).
ELRANGE is `[elrange_base, elrange_base + elrange_size)` and the USER
range `[user_base, user_base + user_size)` is a sub-range of it; the
RTS range is the part of ELRANGE outside the USER range. -/
structure MmLayoutModel where
  elrange_base : Nat
  elrange_size : Nat
  user_base : Nat
  user_size : Nat
deriving DecidableEq, Repr

/-- Modelled from the spec: `[addr, addr + len)` lies inside ELRANGE. -/
def is_within_enclave (L : MmLayoutModel) (addr len : Nat) : Bool :=
  decide (L.elrange_base ≤ addr ∧ addr + len ≤ L.elrange_base + L.elrange_size)

/-- Modelled from the spec: `[addr, addr + len)` lies inside the USER range. -/
def is_within_user_range (L : MmLayoutModel) (addr len : Nat) : Bool :=
  decide (L.user_base ≤ addr ∧ addr + len ≤ L.user_base + L.user_size)

/-- Modelled from the spec: `[addr, addr + len)` lies inside the RTS range,
the part of ELRANGE below the USER range or above it. -/
def is_within_rts_range (L : MmLayoutModel) (addr len : Nat) : Bool :=
  decide ((L.elrange_base ≤ addr ∧ addr + len ≤ L.user_base) ∨
    (L.user_base + L.user_size ≤ addr ∧ addr + len ≤ L.elrange_base + L.elrange_size))

/-- vmmgr.rs VmMgr::check: argument validation for the public entry
points.  The page-alignment and within-enclave checks are guarded by
`addr > 0`; the length checks and the range classification always run. -/
def VmMgr.check (L : MmLayoutModel) (addr len : Nat) : Except OsError RangeType :=
  if addr > 0 ∧ ¬(is_page_aligned addr ∧ is_within_enclave L addr len) then
    .error .EINVAL
  else if ¬(len ≠ 0 ∧ len % SE_PAGE_SIZE = 0) then
    .error .EINVAL
  else if is_within_rts_range L addr len then
    .ok .Rts
  else if is_within_user_range L addr len then
    .ok .User
  else
    .error .EINVAL

/-! ## Reserve allocator (alloc.rs) -/

/-- A chunk header (alloc.rs Chunk): bump arena over
`[base, base + size)` with `used` bytes already handed out. -/
structure Chunk where
  base : Nat
  size : Nat
  used : Nat
deriving DecidableEq, Repr

/-- Chunk::new. -/
def Chunk.new (base size : Nat) : Chunk :=
  { base := base, size := size, used := 0 }

/-- A free block as it sits in memory (alloc.rs BlockFree): its address
and the size word stored in its one-word header.  `size` encodes the
block's total footprint; the low bit is the allocated tag. -/
structure BlockFree where
  addr : Nat
  size : Nat
deriving DecidableEq, Repr

/-- BlockFree::block_size / BlockUsed::block_size: the stored size with
the low three bits masked off (`size & SIZE_MASK`). -/
def BlockFree.block_size (b : BlockFree) : Nat :=
  b.size - b.size % EXACT_MATCH_INCREMENT

/-- `size & SIZE_MASK` applied to a raw header word. -/
def size_mask (n : Nat) : Nat := n - n % EXACT_MATCH_INCREMENT

/-- Reserve allocator state (alloc.rs Reserve): 256 exact-size free
lists, one large-block free list, the chunk list and the growth
increment.  The statistics fields are omitted; list heads are the
fronts of the Lean lists. -/
structure Reserve where
  exact_blocks : List (List BlockFree)
  large_blocks : List BlockFree
  chunks : List Chunk
  incr_size : Nat
deriving DecidableEq, Repr

/-- Reserve::get_list_idx: index of the exact list for a block size. -/
def Reserve.get_list_idx (size : Nat) : Nat :=
  if size < MIN_BLOCK_SIZE then 0
  else (size - MIN_BLOCK_SIZE) / EXACT_MATCH_INCREMENT

/-- Reserve::get_exact_block: pop the head of the exact list for bsize. -/
def Reserve.get_exact_block (st : Reserve) (bsize : Nat) :
    Option BlockFree × Reserve :=
  let idx := Reserve.get_list_idx bsize
  match (st.exact_blocks.getD idx []).head? with
  | Option.none => (Option.none, st)
  | Option.some b =>
      (Option.some b,
        { st with
          exact_blocks := st.exact_blocks.set idx (st.exact_blocks.getD idx []).tail })

/-- First pass of the large-list scan in Reserve::get_free_block: walk
the list keeping the current best candidate (`suit_block`).  A block
replaces the candidate when its raw size is at least bsize and it is
strictly smaller than the candidate's block_size. -/
def find_suit_block (bsize : Nat) : List BlockFree → Option BlockFree → Option BlockFree
  | [], acc => acc
  | b :: rest, acc =>
      if bsize ≤ b.size ∧ (acc = Option.none ∨ b.size < (acc.getD b).block_size) then
        find_suit_block bsize rest (Option.some b)
      else
        find_suit_block bsize rest acc

/-- Second pass of the large-list scan: remove the first node whose
address equals the chosen block's address (pop_front for the head,
remove_next otherwise) and return it together with the rest. -/
def remove_block_at_addr (a : Nat) : List BlockFree → Option (BlockFree × List BlockFree)
  | [] => Option.none
  | b :: rest =>
      if b.addr = a then Option.some (b, rest)
      else
        match remove_block_at_addr a rest with
        | Option.none => Option.none
        | Option.some (x, rest') => Option.some (x, b :: rest')

/-- Reserve::get_free_block: exact-list pop for small footprints,
best-fit unlink from the large list otherwise. -/
def Reserve.get_free_block (st : Reserve) (bsize : Nat) :
    Option BlockFree × Reserve :=
  if bsize ≤ MAX_EXACT_SIZE then
    st.get_exact_block bsize
  else
    match find_suit_block bsize st.large_blocks Option.none with
    | Option.none => (Option.none, st)
    | Option.some s =>
        match remove_block_at_addr s.addr st.large_blocks with
        | Option.none => (Option.none, st)
        | Option.some (b, rest) => (Option.some b, { st with large_blocks := rest })

/-- Reserve::put_free_block: push on the exact list matching the block
size, or on the large list when the block size exceeds MAX_EXACT_SIZE. -/
def Reserve.put_free_block (st : Reserve) (block : BlockFree) : Reserve :=
  let bs := block.block_size
  if bs ≤ MAX_EXACT_SIZE then
    let idx := Reserve.get_list_idx bs
    { st with exact_blocks := st.exact_blocks.set idx (block :: st.exact_blocks.getD idx []) }
  else
    { st with large_blocks := block :: st.large_blocks }

/-- The chunk walk of Reserve::alloc_from_chunks: bump the first chunk
with room for bsize and return the bump address, or 0 (the sentinel the
code uses) when no chunk fits. -/
def bump_chunks (bsize : Nat) : List Chunk → Nat × List Chunk
  | [] => (0, [])
  | c :: rest =>
      if bsize ≤ c.size - c.used then
        (c.base + c.used, { c with used := c.used + bsize } :: rest)
      else
        let (a, rest') := bump_chunks bsize rest
        (a, c :: rest')

/-- Reserve::alloc_from_chunks: on success the fresh BlockFree written
at the bump address carries footprint bsize. -/
def Reserve.alloc_from_chunks (st : Reserve) (bsize : Nat) :
    Option BlockFree × Reserve :=
  let (addr, chunks') := bump_chunks bsize st.chunks
  if addr = 0 then (Option.none, { st with chunks := chunks' })
  else (Option.some { addr := addr, size := bsize }, { st with chunks := chunks' })

/-- Reserve::write_chunk: lay a Chunk header at `base` managing
`[base + CHUNK_HEADER_SIZE, base + size)` and push it on the chunk list. -/
def Reserve.write_chunk (st : Reserve) (base size : Nat) : Reserve :=
  { st with chunks := Chunk.new (base + CHUNK_HEADER_SIZE) (size - CHUNK_HEADER_SIZE) :: st.chunks }

/-- The chunk-list and increment effect of Reserve::add_chunks once the
VM manager has returned `base` for the COMMIT_ON_DEMAND | FIXED region:
write the chunk header and double incr_size up to MAX_EMALLOC_SIZE. -/
def Reserve.add_chunks_state (st : Reserve) (base rsize : Nat) : Reserve :=
  let increment := max st.incr_size rsize
  let st' := st.write_chunk base increment
  { st' with incr_size := min (st.incr_size * 2) MAX_EMALLOC_SIZE }

/-- The block footprint computed at the top of Reserve::emalloc:
`round_to!(size + HEADER_SIZE, EXACT_MATCH_INCREMENT)` then
`.max(MIN_BLOCK_SIZE)`. -/
def emalloc_bsize (size : Nat) : Nat :=
  max (round_to (size + HEADER_SIZE) EXACT_MATCH_INCREMENT) MIN_BLOCK_SIZE

/-- Reserve::emalloc.  `grow` stands for the base address handed back by
the VM manager inside add_chunks (an error there is propagated, as by
the `?` in the source).  The returned Nat is the payload pointer
`&block + HEADER_SIZE`. -/
def Reserve.emalloc (st : Reserve) (grow : Except OsError Nat) (size : Nat) :
    Except OsError (Nat × Reserve) :=
  let bsize := emalloc_bsize size
  match st.get_free_block bsize with
  | (Option.some b, st1) => .ok (b.addr + HEADER_SIZE, st1)
  | (Option.none, st1) =>
      match st1.alloc_from_chunks bsize with
      | (Option.some b, st2) => .ok (b.addr + HEADER_SIZE, st2)
      | (Option.none, st2) =>
          let new_reserve_size := round_to (bsize + CHUNK_HEADER_SIZE) INIT_MEM_SIZE
          match grow with
          | .error e => .error e
          | .ok base =>
              let st3 := st2.add_chunks_state base new_reserve_size
              match st3.alloc_from_chunks bsize with
              | (Option.some b, st4) => .ok (b.addr + HEADER_SIZE, st4)
              | (Option.none, _) => .error .ENOMEM

/-- Reserve::find_chunk_with_block: index of the first chunk whose used
region `[base, base + used)` contains the whole block, none for a
zero-sized block or when no chunk contains it. -/
def find_chunk_with_block (chunks : List Chunk) (block_addr block_size : Nat) :
    Option Nat :=
  if block_size = 0 then Option.none
  else chunks.findIdx? fun c =>
    decide (c.base ≤ block_addr ∧ block_addr + block_size ≤ c.base + c.used)

/-- Reserve::efree.  `mem` gives the size word stored in a block header
(payload_to_block reads it at `payload_addr - HEADER_SIZE` and masks the
allocated bit).  The result is none exactly when the source panics
(no chunk contains the block). -/
def Reserve.efree (st : Reserve) (mem : Nat → Nat) (payload_addr : Nat) :
    Option Reserve :=
  let block_addr := payload_addr - HEADER_SIZE
  let block_size := size_mask (mem block_addr)
  let block_end := block_addr + block_size
  match find_chunk_with_block st.chunks block_addr block_size with
  | Option.none => Option.none
  | Option.some i =>
      let c := st.chunks.getD i (Chunk.new 0 0)
      if block_end - c.base = c.used then
        Option.some { st with chunks := st.chunks.set i { c with used := c.used - block_size } }
      else
        Option.some (st.put_free_block { addr := block_addr, size := block_size })

/-! ## EMA nodes (modelled from the spec; ema.rs is outside src/) -/

/-- Modelled from the spec: an Enclave Memory Area record (spec section
3; ema.rs is not under src/).  `eaccept_map` has one bit per page of the
interval; bit i is set iff page i is committed. -/
structure Ema where
  start : Nat
  length : Nat
  alloc_flags : AllocFlags
  info : PageInfo
  eaccept_map : List Bool
  alloc : AllocType
deriving DecidableEq, Repr

/-- One-past-the-end address of an EMA. -/
def Ema.end_addr (e : Ema) : Nat := e.start + e.length

/-- Modelled from the spec: lower_than_addr(a) is end ≤ a. -/
def Ema.lower_than_addr (e : Ema) (a : Nat) : Bool := decide (e.end_addr ≤ a)

/-- Modelled from the spec: higher_than_addr(a) is start ≥ a. -/
def Ema.higher_than_addr (e : Ema) (a : Nat) : Bool := decide (a ≤ e.start)

/-- Modelled from the spec: aligned_end(align) is round_up(end, align). -/
def Ema.aligned_end (e : Ema) (align : Nat) : Nat := round_to e.end_addr align

/-- Modelled from the spec: split(at) divides an EMA into
`[start, at)` and `[at, end)` keeping the bitmap slices consistent.
The source mutates self into the left part and returns the right part;
here both parts are returned. -/
def Ema.split_at (e : Ema) (a : Nat) : Ema × Ema :=
  let lpages := (a - e.start) / SE_PAGE_SIZE
  ({ e with length := a - e.start, eaccept_map := e.eaccept_map.take lpages },
   { e with start := a, length := e.end_addr - a, eaccept_map := e.eaccept_map.drop lpages })

/-- Modelled from the spec: EmaOptions carries
`{addr?, length, alloc_flags, page_info, allocator_tag}`.
EmaOptions::new defaults the page info to regular RW pages and the
allocator tag to the reserve heap. -/
structure EmaOptions where
  addr : Option Nat
  length : Nat
  alloc_flags : AllocFlags
  info : PageInfo := { typ := .reg, prot := ProtFlags.RW }
  alloc : AllocType := .Reserve
deriving DecidableEq, Repr

/-- EmaOptions::new(addr, length, alloc_flags). -/
def EmaOptions.new (addr : Option Nat) (length : Nat) (alloc_flags : AllocFlags) :
    EmaOptions :=
  { addr := addr, length := length, alloc_flags := alloc_flags }

/-- Modelled from the spec: EmaOptions::check validates the options
(spec sections 3 and 6): exactly one of COMMIT_NOW, COMMIT_ON_DEMAND,
RESERVED; GROWSUP and GROWSDOWN mutually exclusive and only with
COMMIT_ON_DEMAND; non-zero page-multiple length; page-aligned address;
no X protection without R. -/
def EmaOptions.check (opts : EmaOptions) : Except OsError Unit :=
  let f := opts.alloc_flags
  let commit_bits := (if f.commit_now then 1 else 0) + (if f.commit_on_demand then 1 else 0)
    + (if f.reserved then 1 else 0)
  if commit_bits ≠ 1 then .error .EINVAL
  else if f.growsup ∧ f.growsdown then .error .EINVAL
  else if (f.growsup ∨ f.growsdown) ∧ ¬f.commit_on_demand then .error .EINVAL
  else if opts.length = 0 ∨ opts.length % SE_PAGE_SIZE ≠ 0 then .error .EINVAL
  else if (opts.addr.getD 0) % SE_PAGE_SIZE ≠ 0 then .error .EINVAL
  else if opts.info.prot.x ∧ ¬opts.info.prot.r then .error .EINVAL
  else .ok ()

/-- Modelled from the spec: Ema::allocate builds the node; with
apply_now set and COMMIT_NOW the whole bitmap is committed as part of
allocation (spec section 4.4), otherwise the bitmap starts all-clear. -/
def Ema.allocate (opts : EmaOptions) (apply_now : Bool) : Ema :=
  let pages := opts.length / SE_PAGE_SIZE
  { start := opts.addr.getD 0
    length := opts.length
    alloc_flags := opts.alloc_flags
    info := opts.info
    eaccept_map := List.replicate pages (opts.alloc_flags.commit_now && apply_now)
    alloc := opts.alloc }

/-- Modelled from the spec: commit_check returns a structural error on
an EMA whose flags forbid committing pages (a RESERVED EMA has no
committable pages). -/
def Ema.commit_check (e : Ema) : Except OsError Unit :=
  if e.alloc_flags.reserved then .error .EACCES else .ok ()

/-- Modelled from the spec: uncommit_check, as commit_check. -/
def Ema.uncommit_check (e : Ema) : Except OsError Unit :=
  if e.alloc_flags.reserved then .error .EACCES else .ok ()

/-- Modelled from the spec: modify_perm_check returns a structural error
on wrong flags or wrong page type (only regular committed pages can
change permissions). -/
def Ema.modify_perm_check (e : Ema) : Except OsError Unit :=
  if e.alloc_flags.reserved then .error .EACCES
  else if e.info.typ ≠ PageType.reg then .error .EACCES
  else .ok ()

/-- Modelled from the spec: Ema::commit(start, size) sets the bit of
every page of `[start, start + size)`; already-set bits stay set. -/
def Ema.commit_range (e : Ema) (start size : Nat) : Ema :=
  { e with
    eaccept_map := e.eaccept_map.mapIdx fun i b =>
      if start ≤ e.start + i * SE_PAGE_SIZE ∧ e.start + i * SE_PAGE_SIZE < start + size
      then true else b }

/-- Modelled from the spec: Ema::uncommit(start, size) clears the bit of
every page of `[start, start + size)`. -/
def Ema.uncommit_range (e : Ema) (start size : Nat) : Ema :=
  { e with
    eaccept_map := e.eaccept_map.mapIdx fun i b =>
      if start ≤ e.start + i * SE_PAGE_SIZE ∧ e.start + i * SE_PAGE_SIZE < start + size
      then false else b }

/-- Modelled from the spec: modify_perm updates page_info.prot. -/
def Ema.modify_perm (e : Ema) (prot : ProtFlags) : Ema :=
  { e with info := { e.info with prot := prot } }

/-- Modelled from the spec: change_to_tcs sets page_info.type = Tcs. -/
def Ema.change_to_tcs (e : Ema) : Ema :=
  { e with info := { e.info with typ := .tcs } }

/-- A placeholder EMA used only as the default of list lookups that the
source performs through known-valid raw pointers. -/
def Ema.dummy : Ema :=
  { start := 0, length := 0, alloc_flags := {}, info := { typ := .none, prot := ProtFlags.NONE },
    eaccept_map := [], alloc := .Reserve }

/-! ## VM manager (vmmgr.rs) -/

/-- The two ordered interval lists of the VM manager. -/
structure VmMgr where
  user : List Ema
  rts : List Ema
deriving DecidableEq, Repr

/-- Select the list for a range type. -/
def VmMgr.get_list (m : VmMgr) (typ : RangeType) : List Ema :=
  match typ with
  | .Rts => m.rts
  | .User => m.user

/-- Replace the list for a range type. -/
def VmMgr.set_list (m : VmMgr) (typ : RangeType) (l : List Ema) : VmMgr :=
  match typ with
  | .Rts => { m with rts := l }
  | .User => { m with user := l }

/-- The continuity test of VmMgr::search_ema_range: walking the selected
EMAs, every previous end must equal the current start (the first EMA
compares against its own start and always passes). -/
def adjacent_ok : List Ema → Bool
  | [] => true
  | [_] => true
  | a :: b :: rest => (a.end_addr == b.start) && adjacent_ok (b :: rest)

/-- Replace the element at index i by the given elements. -/
def replace_at {α : Type} (l : List α) (i : Nat) (xs : List α) : List α :=
  l.take i ++ xs ++ l.drop (i + 1)

/-- VmMgr::search_ema_range(start, end, typ, continuous, split) on the
selected list: skip EMAs wholly below `s`; fail if the first survivor
sits at or above `e`; count the EMAs not wholly above `e`; with
`continuous`, fail on any gap among them; with `split`, split the first
EMA at `s` and the last at `e` when they straddle.  Returns the
(possibly split) list, the index of the first EMA of the range and the
EMA count. -/
def search_ema_range (l : List Ema) (s e : Nat) (continuous split : Bool) :
    Option (List Ema × Nat × Nat) :=
  let i0 := l.findIdx fun x => !x.lower_than_addr s
  match l[i0]? with
  | Option.none => Option.none
  | Option.some e0 =>
      if e0.higher_than_addr e then Option.none
      else
        let sel := (l.drop i0).takeWhile fun x => !x.higher_than_addr e
        let n := sel.length
        if continuous && !adjacent_ok sel then Option.none
        else if split then
          let (l1, i1) :=
            if e0.start < s then
              (replace_at l i0 [(e0.split_at s).1, (e0.split_at s).2], i0 + 1)
            else (l, i0)
          let li := i1 + n - 1
          let eL := l1.getD li Ema.dummy
          let l2 :=
            if e < eL.end_addr then
              replace_at l1 li [(eL.split_at e).1, (eL.split_at e).2]
            else l1
          Option.some (l2, i1, n)
        else Option.some (l, i0, n)

/-- The walk of VmMgr::find_free_region_at: i is the index of the
cursor.  A null cursor is index `l.length`. -/
def ffra_go (addr len : Nat) : List Ema → Nat → Option Nat
  | [], i => Option.some i
  | x :: rest, i =>
      if addr + len ≤ x.start then Option.some i
      else if x.end_addr ≤ addr then ffra_go addr len rest (i + 1)
      else Option.none

/-- VmMgr::find_free_region_at(addr, len, typ) on the selected list:
the index of the EMA immediately after the free range `[addr, addr+len)`,
or none if the range overlaps an EMA. -/
def find_free_region_at (l : List Ema) (addr len : Nat) : Option Nat :=
  ffra_go addr len l 0

/-- The adjacent-pair sweep of VmMgr::find_free_region: gaps between
EMA i and EMA i+1 of at least len (inside the RTS range when typ is
Rts).  Returns the chosen address and the next-EMA index. -/
def ffr_pairs (L : MmLayoutModel) (len align : Nat) (typ : RangeType) :
    List Ema → Nat → Option (Nat × Nat)
  | [], _ => Option.none
  | [_], _ => Option.none
  | a :: b :: rest, i =>
      let curr_end := a.aligned_end align
      let next_start := b.start
      if curr_end ≤ next_start ∧ len ≤ next_start - curr_end ∧
          (typ = RangeType.User ∨ is_within_rts_range L curr_end len) then
        Option.some (curr_end, i + 1)
      else
        ffr_pairs L len align typ (b :: rest) (i + 1)

/-- VmMgr::find_free_region(len, align, typ) on the selected list.
On an empty list a range-appropriate address is chosen; otherwise the
interior gaps are swept, then the space past the last EMA, then the
space before the first EMA.  Returns the chosen address and the
next-EMA index (insertion point). -/
def find_free_region (L : MmLayoutModel) (l : List Ema) (len align : Nat)
    (typ : RangeType) : Option (Nat × Nat) :=
  let user_base := L.user_base
  let user_end := L.user_base + L.user_size
  match l with
  | [] =>
      match typ with
      | RangeType.Rts =>
          if len ≤ user_base then
            let addr := trim_to (user_base - len) align
            if is_within_enclave L addr len then Option.some (addr, 0) else Option.none
          else
            let addr := round_to user_end align
            if is_within_enclave L addr len then Option.some (addr, 0) else Option.none
      | RangeType.User =>
          let addr := round_to user_base align
          if is_within_user_range L addr len then Option.some (addr, 0) else Option.none
  | x0 :: _ =>
      match ffr_pairs L len align typ l 0 with
      | Option.some r => Option.some r
      | Option.none =>
          let last := l.getLastD Ema.dummy
          let addr := last.aligned_end align
          if is_within_enclave L addr len &&
              ((typ == RangeType.Rts && is_within_rts_range L addr len) ||
                (typ == RangeType.User && is_within_user_range L addr len)) then
            Option.some (addr, l.length)
          else
            let start_first := x0.start
            if start_first < len then Option.none
            else
              let addr := trim_to start_first align
              match typ with
              | RangeType.User =>
                  if is_within_user_range L addr len then Option.some (addr, 0)
                  else Option.none
              | RangeType.Rts =>
                  if is_within_enclave L addr len && is_within_rts_range L addr len then
                    Option.some (addr, 0)
                  else Option.none

/-- VmMgr::clear_reserved_emas(start, end, typ, alloc) on the selected
list: locate the range with continuous and split set; succeed only when
every located EMA is RESERVED with the given allocator tag, removing
them and returning the cursor index; otherwise leave the (possibly
split) list and return no cursor. -/
def clear_reserved_emas (l : List Ema) (s e : Nat) (alloc : AllocType) :
    List Ema × Option Nat :=
  match search_ema_range l s e true true with
  | Option.none => (l, Option.none)
  | Option.some (l', i, n) =>
      let window := (l'.drop i).take n
      if window.all fun x => x.alloc_flags.reserved && (x.alloc == alloc) then
        (l'.take i ++ l'.drop (i + n), Option.some i)
      else
        (l', Option.none)

/-- VmMgr::dealloc(addr, size): validate, locate the EMAs of the range
with continuous set to false and split set to true, deallocate each
located EMA and remove it, returning its node to its owning heap. -/
def VmMgr.dealloc (L : MmLayoutModel) (m : VmMgr) (addr size : Nat) :
    Except OsError Unit × VmMgr :=
  match VmMgr.check L addr size with
  | .error err => (.error err, m)
  | .ok typ =>
      match search_ema_range (m.get_list typ) addr (addr + size) false true with
      | Option.none => (.error .EINVAL, m)
      | Option.some (l', i, n) =>
          (.ok (), m.set_list typ (l'.take i ++ l'.drop (i + n)))

/-- VmMgr::alloc(options, typ).  With a requested address: an
overlapping range is handed to clear_reserved_emas; on its failure a
FIXED request returns EEXIST (the list keeps any splits); without
overlap a free-at-address probe is made whose cursor the source drops,
so the request falls through to the free-region search unless FIXED
fails with EPERM.  The resolved address gets a fresh EMA inserted
before the cursor. -/
def VmMgr.alloc (L : MmLayoutModel) (m : VmMgr) (opts : EmaOptions)
    (typ : RangeType) : Except OsError Nat × VmMgr :=
  match EmaOptions.check opts with
  | .error err => (.error err, m)
  | .ok _ =>
      let size := opts.length
      let l := m.get_list typ
      let fixed := opts.alloc_flags.fixed
      let step2 : List Ema → Option (Nat × Nat) → Except OsError Nat × VmMgr :=
        fun l1 chosen =>
          let insert : Nat → Nat → Except OsError Nat × VmMgr := fun a i =>
            let new_ema := Ema.allocate { opts with addr := Option.some a } true
            (.ok a, m.set_list typ (l1.take i ++ new_ema :: l1.drop i))
          match chosen with
          | Option.some (a, i) => insert a i
          | Option.none =>
              match find_free_region L l1 size (2 ^ SE_PAGE_SHIFT) typ with
              | Option.none => (.error .ENOMEM, m.set_list typ l1)
              | Option.some (a, i) => insert a i
      match opts.addr with
      | Option.some addr =>
          let e := addr + size
          match search_ema_range l addr e false false with
          | Option.some _ =>
              match clear_reserved_emas l addr e opts.alloc with
              | (l1, Option.some i) => step2 l1 (Option.some (addr, i))
              | (l1, Option.none) =>
                  if fixed then (.error .EEXIST, m.set_list typ l1)
                  else step2 l1 Option.none
          | Option.none =>
              match find_free_region_at l addr size with
              | Option.none =>
                  if fixed then (.error .EPERM, m) else step2 l Option.none
              | Option.some _ => step2 l Option.none
      | Option.none => step2 l Option.none

/-- The check loop of VmMgr::apply_commands over the located EMAs. -/
def run_checks (check : Ema → Except OsError Unit) : List Ema → Except OsError Unit
  | [] => .ok ()
  | x :: rest =>
      match check x with
      | .error err => .error err
      | .ok _ => run_checks check rest

/-- The command loop of VmMgr::apply_commands over the located EMAs; a
mid-loop failure keeps the EMAs already mutated. -/
def run_commands (command : Ema → Except OsError Ema) :
    List Ema → Except OsError Unit × List Ema
  | [] => (.ok (), [])
  | x :: rest =>
      match command x with
      | .error err => (.error err, x :: rest)
      | .ok x' =>
          let (res, rest') := run_commands command rest
          (res, x' :: rest')

/-- VmMgr::apply_commands(addr, size, split, check, commands): validate,
locate the continuous range (splitting when asked), run every check,
then run every command. -/
def VmMgr.apply_commands (L : MmLayoutModel) (m : VmMgr) (addr size : Nat)
    (split : Bool) (check : Ema → Except OsError Unit)
    (command : Ema → Except OsError Ema) : Except OsError Unit × VmMgr :=
  match VmMgr.check L addr size with
  | .error err => (.error err, m)
  | .ok typ =>
      match search_ema_range (m.get_list typ) addr (addr + size) true split with
      | Option.none => (.error .EINVAL, m)
      | Option.some (l', i, n) =>
          let window := (l'.drop i).take n
          match run_checks check window with
          | .error err => (.error err, m.set_list typ l')
          | .ok _ =>
              let (res, window') := run_commands command window
              (res, m.set_list typ (l'.take i ++ window' ++ l'.drop (i + n)))

/-- VmMgr::modify_perms(addr, size, prot): reject X without R, then
apply_commands with split set, modify_perm_check and modify_perm. -/
def VmMgr.modify_perms (L : MmLayoutModel) (m : VmMgr) (addr size : Nat)
    (prot : ProtFlags) : Except OsError Unit × VmMgr :=
  if prot.x && !prot.r then (.error .EINVAL, m)
  else
    VmMgr.apply_commands L m addr size true Ema.modify_perm_check
      (fun x => .ok (x.modify_perm prot))

/-- VmMgr::commit(addr, size): apply_commands without split,
commit_check, and Ema::commit on the intersection of each EMA with the
range. -/
def VmMgr.commit (L : MmLayoutModel) (m : VmMgr) (addr size : Nat) :
    Except OsError Unit × VmMgr :=
  let e := addr + size
  VmMgr.apply_commands L m addr size false Ema.commit_check
    (fun x =>
      let s' := max addr x.start
      let e' := min e x.end_addr
      .ok (x.commit_range s' (e' - s')))

/-- VmMgr::uncommit(addr, size): apply_commands without split,
uncommit_check, and Ema::uncommit on the intersection. -/
def VmMgr.uncommit (L : MmLayoutModel) (m : VmMgr) (addr size : Nat) :
    Except OsError Unit × VmMgr :=
  let e := addr + size
  VmMgr.apply_commands L m addr size false Ema.uncommit_check
    (fun x =>
      let s' := max addr x.start
      let e' := min e x.end_addr
      .ok (x.uncommit_range s' (e' - s')))

/-- VmMgr::modify_type(addr, size, new_page_typ): validate, require Tcs
and a single page, locate the continuous range with split, and change
the (single) located EMA to a TCS page. -/
def VmMgr.modify_type (L : MmLayoutModel) (m : VmMgr) (addr size : Nat)
    (new_page_typ : PageType) : Except OsError Unit × VmMgr :=
  match VmMgr.check L addr size with
  | .error err => (.error err, m)
  | .ok typ =>
      if new_page_typ ≠ PageType.tcs then (.error .EPERM, m)
      else if size ≠ SE_PAGE_SIZE then (.error .EINVAL, m)
      else
        match search_ema_range (m.get_list typ) addr (addr + size) true true with
        | Option.none => (.error .EINVAL, m)
        | Option.some (l', i, _) =>
            (.ok (), m.set_list typ (l'.set i (l'.getD i Ema.dummy).change_to_tcs))

/-! ## Host bridge (ocall.rs) -/

/-- ocall.rs alloc_ocall in hardware mode.  box_ok models whether the
request buffer could be allocated in the untrusted heap, ocall_ok the
result of the raw out-call, retval the server-side return value written
into the buffer. -/
def alloc_ocall_hw (box_ok ocall_ok : Bool) (retval : Int) : Except OsError Unit :=
  if box_ok = false then .error .EFAULT
  else if ocall_ok = true ∧ retval = 0 then .ok ()
  else .error .EFAULT

/-- ocall.rs modify_ocall in hardware mode, same shape as
alloc_ocall_hw. -/
def modify_ocall_hw (box_ok ocall_ok : Bool) (retval : Int) : Except OsError Unit :=
  if box_ok = false then .error .EFAULT
  else if ocall_ok = true ∧ retval = 0 then .ok ()
  else .error .EFAULT

/-- ocall.rs alloc_ocall in simulation/hyper mode: a no-op success. -/
def alloc_ocall_sw (_addr _length : Nat) (_page_type : PageType)
    (_alloc_flags : AllocFlags) : Except OsError Unit :=
  .ok ()

/-- ocall.rs modify_ocall in simulation/hyper mode: a no-op success. -/
def modify_ocall_sw (_addr _length : Nat) (_info_from _info_to : PageInfo) :
    Except OsError Unit :=
  .ok ()

/-! ## The VM requests made by Reserve::add_chunks -/

/-- The two allocation requests Reserve::add_chunks submits to the VM
manager, given the current incr_size, the requested rsize, and the base
address the first request returned: first a RESERVED region of
`increment + 2 * GUARD_SIZE` bytes with no page info, then a
`COMMIT_ON_DEMAND | FIXED` region of `increment` bytes at
`base + GUARD_SIZE`; both carry the Static allocator tag and both are
submitted with RangeType::User. -/
def add_chunks_requests (incr_size rsize base1 : Nat) :
    (EmaOptions × RangeType) × (EmaOptions × RangeType) :=
  let increment := max incr_size rsize
  let o1 :=
    { EmaOptions.new Option.none (increment + 2 * GUARD_SIZE) AllocFlags.RESERVED with
      info := { typ := PageType.none, prot := ProtFlags.NONE }
      alloc := AllocType.Static }
  let o2 :=
    { EmaOptions.new (Option.some (base1 + GUARD_SIZE)) increment
        (AllocFlags.COMMIT_ON_DEMAND.union AllocFlags.FIXED) with
      alloc := AllocType.Static }
  ((o1, RangeType.User), (o2, RangeType.User))

/-! ## Derived observables and concrete instances -/

/-- The per-address view of an EMA list: for the first EMA containing
the address, its flags, page info, allocator tag and the commit bit of
the page holding the address. -/
def page_view (l : List Ema) (a : Nat) : Option (AllocFlags × PageInfo × AllocType × Bool) :=
  (l.find? fun x => decide (x.start ≤ a ∧ a < x.end_addr)).map fun x =>
    (x.alloc_flags, x.info, x.alloc, x.eaccept_map.getD ((a - x.start) / SE_PAGE_SIZE) false)

/-- A concrete enclave layout: ELRANGE `[0x10000, 0x110000)`, USER range
`[0x80000, 0xC0000)`. -/
def layoutA : MmLayoutModel :=
  { elrange_base := 0x10000, elrange_size := 0x100000, user_base := 0x80000, user_size := 0x40000 }

/-- A one-page COMMIT_ON_DEMAND EMA at 0x20000. -/
def ema_gap1 : Ema :=
  { start := 0x20000, length := 0x1000, alloc_flags := { commit_on_demand := true },
    info := { typ := .reg, prot := ProtFlags.RW }, eaccept_map := [false], alloc := .Reserve }

/-- A one-page COMMIT_ON_DEMAND EMA at 0x22000, leaving a one-page hole
after ema_gap1. -/
def ema_gap2 : Ema := { ema_gap1 with start := 0x22000 }

/-- A VM manager whose RTS list has a hole between its two EMAs. -/
def vm_gap : VmMgr := { user := [], rts := [ema_gap1, ema_gap2] }

/-- A two-page non-reserved EMA at 0x20000. -/
def ema_straddle : Ema :=
  { start := 0x20000, length := 0x2000, alloc_flags := { commit_on_demand := true },
    info := { typ := .reg, prot := ProtFlags.RW }, eaccept_map := [false, false],
    alloc := .Reserve }

/-- A FIXED COMMIT_ON_DEMAND request for the second page of
ema_straddle. -/
def opts_fixed : EmaOptions :=
  { addr := Option.some 0x21000, length := 0x1000,
    alloc_flags := { commit_on_demand := true, fixed := true } }

/-- A VM manager whose RTS list holds only ema_straddle. -/
def vm_straddle : VmMgr := { user := [], rts := [ema_straddle] }

/-- ema_straddle with both pages committed. -/
def ema_committed : Ema := { ema_straddle with eaccept_map := [true, true] }

/-- A RESERVED one-page EMA right after ema_committed. -/
def ema_reserved : Ema :=
  { start := 0x22000, length := 0x1000, alloc_flags := { reserved := true },
    info := { typ := .none, prot := ProtFlags.NONE }, eaccept_map := [false],
    alloc := .Reserve }

/-- A VM manager with a committed EMA followed by a RESERVED one. -/
def vm_perms : VmMgr := { user := [], rts := [ema_committed, ema_reserved] }

/-- A reserve state whose large list holds four blocks, two of them
tied at the minimal adequate size for a 2400-byte footprint. -/
def rsv_large : Reserve :=
  { exact_blocks := List.replicate 256 [], chunks := [], incr_size := 65536,
    large_blocks :=
      [{ addr := 0x1000, size := 3008 }, { addr := 0x2000, size := 2504 },
       { addr := 0x3000, size := 2504 }, { addr := 0x4000, size := 4000 }] }

/-- A reserve state with one chunk `[0x1000, 0x11000)` of which 64
bytes are bumped. -/
def rsv_chunk : Reserve :=
  { exact_blocks := List.replicate 256 [], large_blocks := [],
    chunks := [{ base := 0x1000, size := 0x10000, used := 64 }], incr_size := 65536 }

/-- Header words of two 32-byte used blocks at 0x1000 and 0x1020
(size 32 with the allocated bit set). -/
def mem_c7 : Nat → Nat := fun a => if a = 0x1000 ∨ a = 0x1020 then 33 else 0

/-- An empty reserve state. -/
def reserve0 : Reserve :=
  { exact_blocks := List.replicate 256 [], large_blocks := [], chunks := [],
    incr_size := 65536 }

/-! ## Claim theorems -/

/-- Helper for C10: with addr 0 the check reduces to the length tests
and the range classification. -/
theorem check_zero_eq (L : MmLayoutModel) (len : Nat) :
    VmMgr.check L 0 len =
      (if len ≠ 0 ∧ len % SE_PAGE_SIZE = 0 then
        (if is_within_rts_range L 0 len then Except.ok RangeType.Rts
         else if is_within_user_range L 0 len then Except.ok RangeType.User
         else Except.error OsError.EINVAL)
       else Except.error OsError.EINVAL) := by
  by_cases h : len ≠ 0 ∧ len % SE_PAGE_SIZE = 0 <;>
    simp [VmMgr.check, h]

/-- C10: VmMgr::check(0, len) skips the page-alignment and
within-enclave validation: its result is determined by len being a
non-zero page multiple and by the RTS/USER range predicates at (0, len),
while for addr > 0 a failing alignment or enclave-bound check forces
EINVAL. -/
theorem C10_check_zero_addr :
    (∀ (L : MmLayoutModel) (len : Nat),
      VmMgr.check L 0 len =
        (if len ≠ 0 ∧ len % SE_PAGE_SIZE = 0 then
          (if is_within_rts_range L 0 len then Except.ok RangeType.Rts
           else if is_within_user_range L 0 len then Except.ok RangeType.User
           else Except.error OsError.EINVAL)
         else Except.error OsError.EINVAL)) ∧
    (∀ (L L' : MmLayoutModel) (len : Nat),
      is_within_rts_range L 0 len = is_within_rts_range L' 0 len →
      is_within_user_range L 0 len = is_within_user_range L' 0 len →
      VmMgr.check L 0 len = VmMgr.check L' 0 len) ∧
    (∀ (L : MmLayoutModel) (addr len : Nat), 0 < addr →
      (is_page_aligned addr = false ∨ is_within_enclave L addr len = false) →
      VmMgr.check L addr len = Except.error OsError.EINVAL) := by
  refine ⟨check_zero_eq, ?_, ?_⟩
  · intro L L' len hrts huser
    rw [check_zero_eq, check_zero_eq, hrts, huser]
  · intro L addr len haddr hfail
    have hcond : addr > 0 ∧ ¬(is_page_aligned addr ∧ is_within_enclave L addr len) := by
      refine ⟨haddr, ?_⟩
      rcases hfail with h | h <;> simp [h]
    unfold VmMgr.check
    rw [if_pos hcond]

/-- Witness for C10 at a concrete misaligned address. -/
theorem C10_check_zero_addr_witness :
    VmMgr.check layoutA 0x20001 0x1000 = Except.error OsError.EINVAL :=
  C10_check_zero_addr.2.2 layoutA 0x20001 0x1000 (by decide) (Or.inl (by decide))

/-- C5: the footprint computed by emalloc is the least multiple of 8
that is at least N + HEADER_SIZE and at least MIN_BLOCK_SIZE, i.e.
max(MIN_BLOCK_SIZE, round_up(N + HEADER_SIZE, 8)); emalloc(0) gets a
block of footprint exactly MIN_BLOCK_SIZE = 16. -/
theorem C5_emalloc_bsize (n : Nat) :
    emalloc_bsize n % EXACT_MATCH_INCREMENT = 0 ∧
    n + HEADER_SIZE ≤ emalloc_bsize n ∧
    MIN_BLOCK_SIZE ≤ emalloc_bsize n ∧
    (∀ m, m % EXACT_MATCH_INCREMENT = 0 → n + HEADER_SIZE ≤ m →
      MIN_BLOCK_SIZE ≤ m → emalloc_bsize n ≤ m) ∧
    emalloc_bsize 0 = MIN_BLOCK_SIZE ∧ MIN_BLOCK_SIZE = 16 := by
  refine ⟨?_, ?_, ?_, ?_, by decide, by decide⟩ <;>
    simp only [emalloc_bsize, round_to, HEADER_SIZE, EXACT_MATCH_INCREMENT,
      MIN_BLOCK_SIZE, Nat.max_def]
  · split <;> omega
  · split <;> omega
  · split <;> omega
  · intro m h8 hm h16
    split <;> omega

/-- Witness for C5: minimality instantiated at n = 0, m = 16. -/
theorem C5_emalloc_bsize_witness : emalloc_bsize 0 ≤ 16 :=
  (C5_emalloc_bsize 0).2.2.2.1 16 (by decide) (by decide) (by decide)

/-- C8: in hardware mode alloc_ocall and modify_ocall succeed exactly
when the raw out-call succeeded and the server-side retval is zero, and
fail with EFAULT otherwise; the simulation/hyper variants always
succeed. -/
theorem C8_ocall_results (box_ok ocall_ok : Bool) (retval : Int)
    (hbox : box_ok = true) :
    ((alloc_ocall_hw box_ok ocall_ok retval = Except.error OsError.EFAULT ↔
        ¬(ocall_ok = true ∧ retval = 0)) ∧
     (alloc_ocall_hw box_ok ocall_ok retval = Except.ok () ↔
        (ocall_ok = true ∧ retval = 0))) ∧
    ((modify_ocall_hw box_ok ocall_ok retval = Except.error OsError.EFAULT ↔
        ¬(ocall_ok = true ∧ retval = 0)) ∧
     (modify_ocall_hw box_ok ocall_ok retval = Except.ok () ↔
        (ocall_ok = true ∧ retval = 0))) ∧
    (∀ (a l : Nat) (pt : PageType) (fl : AllocFlags),
      alloc_ocall_sw a l pt fl = Except.ok ()) ∧
    (∀ (a l : Nat) (i1 i2 : PageInfo), modify_ocall_sw a l i1 i2 = Except.ok ()) := by
  subst hbox
  by_cases h : ocall_ok = true ∧ retval = 0 <;>
    simp [alloc_ocall_hw, modify_ocall_hw, alloc_ocall_sw, modify_ocall_sw, h]

/-- Witness for C8: a successful hardware out-call. -/
theorem C8_ocall_results_witness : alloc_ocall_hw true true 0 = Except.ok () :=
  (C8_ocall_results true true 0 rfl).1.2.mpr ⟨rfl, rfl⟩

/-- Counterexample for C1: both regions that add_chunks requests from
the VM manager are requested with RangeType::User, not in the RTS
range. -/
theorem C1_counterexample :
    (add_chunks_requests 65536 65536 0x30000).1.2 = RangeType.User ∧
    (add_chunks_requests 65536 65536 0x30000).2.2 = RangeType.User ∧
    RangeType.User ≠ RangeType.Rts :=
  ⟨rfl, rfl, by decide⟩

/-- C1 amended: every backing region that add_chunks obtains from the
VM manager — the RESERVED region of increment + 2*GUARD_SIZE bytes and
the COMMIT_ON_DEMAND | FIXED region of increment bytes at
base + GUARD_SIZE — is requested in the USER range with the Static
allocator tag, and the chunk written into the second region lies inside
it. -/
theorem C1_amended (incr_size rsize base1 : Nat) :
    ((add_chunks_requests incr_size rsize base1).1.2 = RangeType.User ∧
     (add_chunks_requests incr_size rsize base1).2.2 = RangeType.User) ∧
    ((add_chunks_requests incr_size rsize base1).1.1.alloc = AllocType.Static ∧
     (add_chunks_requests incr_size rsize base1).2.1.alloc = AllocType.Static) ∧
    (add_chunks_requests incr_size rsize base1).1.1.length =
      max incr_size rsize + 2 * GUARD_SIZE ∧
    (add_chunks_requests incr_size rsize base1).1.1.alloc_flags = AllocFlags.RESERVED ∧
    (add_chunks_requests incr_size rsize base1).1.1.addr = Option.none ∧
    (add_chunks_requests incr_size rsize base1).2.1.addr =
      Option.some (base1 + GUARD_SIZE) ∧
    (add_chunks_requests incr_size rsize base1).2.1.length = max incr_size rsize ∧
    (add_chunks_requests incr_size rsize base1).2.1.alloc_flags =
      AllocFlags.COMMIT_ON_DEMAND.union AllocFlags.FIXED ∧
    (∀ (st : Reserve) (base2 rs : Nat), CHUNK_HEADER_SIZE ≤ max st.incr_size rs →
      ∃ c, (st.add_chunks_state base2 rs).chunks = c :: st.chunks ∧
        base2 ≤ c.base ∧ c.base + c.size ≤ base2 + max st.incr_size rs ∧
        c.base = base2 + CHUNK_HEADER_SIZE) := by
  refine ⟨⟨rfl, rfl⟩, ⟨rfl, rfl⟩, rfl, rfl, rfl, rfl, rfl, rfl, ?_⟩
  intro st base2 rs h
  simp only [CHUNK_HEADER_SIZE] at h
  refine ⟨{ base := base2 + 32, size := max st.incr_size rs - 32, used := 0 }, rfl, ?_, ?_, rfl⟩
  · show base2 ≤ base2 + 32
    omega
  · show base2 + 32 + (max st.incr_size rs - 32) ≤ base2 + max st.incr_size rs
    omega

/-- Witness for C1 amended: the chunk containment at a concrete state. -/
theorem C1_amended_witness :
    ∃ c, ((reserve0.add_chunks_state 0x30000 65536).chunks = c :: reserve0.chunks ∧
      0x30000 ≤ c.base ∧ c.base + c.size ≤ 0x30000 + max reserve0.incr_size 65536 ∧
      c.base = 0x30000 + CHUNK_HEADER_SIZE) := by
  have h := (C1_amended 65536 65536 0).2.2.2.2.2.2.2.2 reserve0 0x30000 65536 (by decide)
  exact h

/-- Helper: on a sorted, disjoint list, if some EMA overlaps
`[s, e)` then the non-continuous range search succeeds. -/
theorem search_isSome_of_overlap (l : List Ema) (s e : Nat) (sp : Bool)
    (hpair : List.Pairwise (fun a b => a.end_addr ≤ b.start) l)
    (hov : ∃ x ∈ l, x.start < e ∧ s < x.end_addr) :
    ∃ r, search_ema_range l s e false sp = Option.some r := by
  classical
  obtain ⟨x, hxmem, hxe, hxs⟩ := hov
  have hpx : (!x.lower_than_addr s) = true := by
    simp [Ema.lower_than_addr]
    omega
  have hlt : l.findIdx (fun y => !y.lower_than_addr s) < l.length :=
    List.findIdx_lt_length_of_exists ⟨x, hxmem, hpx⟩
  obtain ⟨jx, hjx, hjeq⟩ := List.mem_iff_getElem.mp hxmem
  have hle : l.findIdx (fun y => !y.lower_than_addr s) ≤ jx := by
    by_contra hcon
    push_neg at hcon
    have hfalse := @List.not_of_lt_findIdx _ (fun y => !y.lower_than_addr s) l jx hcon
    simp only [hjeq] at hfalse
    rw [hfalse] at hpx
    exact Bool.false_ne_true hpx
  have hstartle : (l.get ⟨l.findIdx (fun y => !y.lower_than_addr s), hlt⟩).start ≤ x.start := by
    rcases Nat.lt_or_ge (l.findIdx (fun y => !y.lower_than_addr s)) jx with hlt2 | hge
    · have hR := List.pairwise_iff_get.mp hpair
        ⟨l.findIdx (fun y => !y.lower_than_addr s), hlt⟩ ⟨jx, hjx⟩ hlt2
      have hx' : l.get ⟨jx, hjx⟩ = x := by
        simpa using hjeq
      rw [hx'] at hR
      have : (l.get ⟨l.findIdx (fun y => !y.lower_than_addr s), hlt⟩).start ≤
          (l.get ⟨l.findIdx (fun y => !y.lower_than_addr s), hlt⟩).end_addr := by
        simp [Ema.end_addr]
      omega
    · have heq : l.findIdx (fun y => !y.lower_than_addr s) = jx := le_antisymm hle hge
      have hx' : l.get ⟨jx, hjx⟩ = x := by
        simpa using hjeq
      simp only [heq, hx']
      exact Nat.le_refl _
  have hnothigher : ((l.get ⟨l.findIdx (fun y => !y.lower_than_addr s), hlt⟩).higher_than_addr e)
      = false := by
    simp only [Ema.higher_than_addr, decide_eq_false_iff_not]
    omega
  have hget : l[(l.findIdx (fun y => !y.lower_than_addr s))]? =
      Option.some (l.get ⟨l.findIdx (fun y => !y.lower_than_addr s), hlt⟩) := by
    rw [List.getElem?_eq_getElem hlt]
    simp
  simp only [search_ema_range]
  rw [hget]
  simp only [hnothigher, Bool.false_eq_true, if_false, Bool.false_and]
  cases sp <;> simp

/-- Counterexample for C2: a page-aligned dealloc over two EMAs with a
one-page hole between them succeeds and removes both EMAs instead of
failing with INVALID (dealloc searches with continuous = false). -/
theorem C2_counterexample :
    0x20000 % SE_PAGE_SIZE = 0 ∧ (0x3000 : Nat) ≠ 0 ∧ 0x3000 % SE_PAGE_SIZE = 0 ∧
    ema_gap1.end_addr ≠ ema_gap2.start ∧
    ema_gap1.end_addr < ema_gap2.start ∧
    VmMgr.dealloc layoutA vm_gap 0x20000 0x3000 =
      (Except.ok (), { user := [], rts := [] }) := by
  refine ⟨by decide, by decide, by decide, by decide, by decide, ?_⟩
  rfl

/-- C2 amended: dealloc locates the EMAs of the range with
continuous = false, so a hole does not cause failure: it fails with
INVALID exactly when no EMA overlaps the range (or validation fails),
and otherwise removes every located EMA, hole or not.  In particular on
a sorted disjoint list any overlap makes dealloc succeed. -/
theorem C2_amended (L : MmLayoutModel) (m : VmMgr) (addr size : Nat) (typ : RangeType)
    (hchk : VmMgr.check L addr size = Except.ok typ) :
    (search_ema_range (m.get_list typ) addr (addr + size) false true = Option.none →
      VmMgr.dealloc L m addr size = (Except.error OsError.EINVAL, m)) ∧
    (∀ l' i n,
      search_ema_range (m.get_list typ) addr (addr + size) false true =
        Option.some (l', i, n) →
      VmMgr.dealloc L m addr size =
        (Except.ok (), m.set_list typ (l'.take i ++ l'.drop (i + n)))) ∧
    (List.Pairwise (fun a b => a.end_addr ≤ b.start) (m.get_list typ) →
      (∃ x ∈ m.get_list typ, x.start < addr + size ∧ addr < x.end_addr) →
      (VmMgr.dealloc L m addr size).1 = Except.ok ()) := by
  refine ⟨?_, ?_, ?_⟩
  · intro hs
    simp [VmMgr.dealloc, hchk, hs]
  · intro l' i n hs
    simp [VmMgr.dealloc, hchk, hs]
  · intro hpair hov
    obtain ⟨r, hr⟩ :=
      search_isSome_of_overlap (m.get_list typ) addr (addr + size) true hpair hov
    obtain ⟨l', i, n⟩ := r
    simp [VmMgr.dealloc, hchk, hr]

/-- Witness for C2 amended: the gap scenario of the counterexample
input satisfies the overlap condition and dealloc succeeds. -/
theorem C2_amended_witness :
    (VmMgr.dealloc layoutA vm_gap 0x20000 0x3000).1 = Except.ok () := by
  have h := (C2_amended layoutA vm_gap 0x20000 0x3000 RangeType.Rts rfl).2.2
  exact h (by decide) ⟨ema_gap1, by decide, by decide, by decide⟩

/-- Helper: characterization of the first large-list pass.  With all
sizes 8-aligned, the scan keeps the accumulator only if nothing beats
it, and otherwise returns a block of the list that is adequate, beats
the accumulator, is minimal among adequate blocks, and strictly beats
every adequate block before it. -/
theorem find_suit_go (bsize : Nat) (l : List BlockFree) :
    ∀ (acc : Option BlockFree),
    (∀ b ∈ l, b.size % EXACT_MATCH_INCREMENT = 0) →
    (∀ a, acc = Option.some a → a.size % EXACT_MATCH_INCREMENT = 0) →
    (match find_suit_block bsize l acc with
     | Option.none => acc = Option.none ∧ ∀ b ∈ l, b.size < bsize
     | Option.some c =>
        (acc = Option.some c ∧ ∀ b ∈ l, bsize ≤ b.size → c.size ≤ b.size) ∨
        (∃ l1 l2, l = l1 ++ c :: l2 ∧ bsize ≤ c.size ∧
          (∀ a, acc = Option.some a → c.size < a.size) ∧
          (∀ b ∈ l, bsize ≤ b.size → c.size ≤ b.size) ∧
          (∀ b ∈ l1, bsize ≤ b.size → c.size < b.size))) := by
  induction l with
  | nil =>
      intro acc _ _
      cases acc with
      | none => exact ⟨rfl, by simp⟩
      | some a =>
          exact Or.inl ⟨rfl, fun b hb => absurd hb (List.not_mem_nil b)⟩
  | cons b rest ih =>
      intro acc hl hacc
      have hb8 : b.size % EXACT_MATCH_INCREMENT = 0 := hl b (by simp)
      have hrest : ∀ x ∈ rest, x.size % EXACT_MATCH_INCREMENT = 0 :=
        fun x hx => hl x (by simp [hx])
      by_cases hC : bsize ≤ b.size ∧ (acc = Option.none ∨ b.size < (acc.getD b).block_size)
      · have hstep : find_suit_block bsize (b :: rest) acc =
            find_suit_block bsize rest (Option.some b) := by
          simp only [find_suit_block, if_pos hC]
        have ihb := ih (Option.some b) hrest
          (by intro a ha; cases ha; exact hb8)
        rw [hstep]
        cases hres : find_suit_block bsize rest (Option.some b) with
        | none =>
            rw [hres] at ihb
            exact absurd ihb.1 (by simp)
        | some c =>
            rw [hres] at ihb
            have haccbeats : ∀ a, acc = Option.some a → b.size < a.size := by
              intro a ha
              rcases hC.2 with h | h
              · rw [ha] at h
                cases h
              · rw [ha] at h
                have ha8 := hacc a ha
                simp only [Option.getD, BlockFree.block_size] at h
                omega
            rcases ihb with ⟨hcb, hmin⟩ | ⟨l1, l2, hdec, hade, hbeat, hmin, hstrict⟩
            · have hcb' : c = b := by
                injection hcb with h
                exact h.symm
              subst hcb'
              refine Or.inr ⟨[], rest, by simp, hC.1, haccbeats, ?_, by simp⟩
              intro x hx hxa
              rcases List.mem_cons.mp hx with rfl | hx'
              · exact Nat.le_refl _
              · exact hmin x hx' hxa
            · have hcbeatb : c.size < b.size := hbeat b rfl
              refine Or.inr ⟨b :: l1, l2, by rw [hdec, List.cons_append], hade, ?_, ?_, ?_⟩
              · intro a ha
                exact Nat.lt_trans hcbeatb (haccbeats a ha)
              · intro x hx hxa
                rcases List.mem_cons.mp hx with rfl | hx'
                · exact Nat.le_of_lt hcbeatb
                · exact hmin x hx' hxa
              · intro x hx hxa
                rcases List.mem_cons.mp hx with rfl | hx'
                · exact hcbeatb
                · exact hstrict x hx' hxa
      · have hstep : find_suit_block bsize (b :: rest) acc =
            find_suit_block bsize rest acc := by
          simp only [find_suit_block, if_neg hC]
        have ihb := ih acc hrest hacc
        rw [hstep]
        cases hres : find_suit_block bsize rest acc with
        | none =>
            rw [hres] at ihb
            obtain ⟨haccn, hsmall⟩ := ihb
            refine ⟨haccn, ?_⟩
            intro x hx
            rcases List.mem_cons.mp hx with rfl | hx'
            · by_contra hcon
              push_neg at hcon
              exact hC ⟨hcon, Or.inl haccn⟩
            · exact hsmall x hx'
        | some c =>
            rw [hres] at ihb
            rcases ihb with ⟨hcacc, hmin⟩ | ⟨l1, l2, hdec, hade, hbeat, hmin, hstrict⟩
            · refine Or.inl ⟨hcacc, ?_⟩
              intro x hx hxa
              rcases List.mem_cons.mp hx with rfl | hx'
              · have hc8 : c.size % EXACT_MATCH_INCREMENT = 0 := hacc c hcacc
                by_contra hcon
                push_neg at hcon
                refine hC ⟨hxa, Or.inr ?_⟩
                rw [hcacc]
                simp only [Option.getD, BlockFree.block_size]
                omega
              · exact hmin x hx' hxa
            · have hstep2 : bsize ≤ b.size → c.size < b.size := by
                intro hxa
                by_contra hcon
                push_neg at hcon
                rcases hacc_cases : acc with _ | a
                · exact hC ⟨hxa, Or.inl hacc_cases⟩
                · have hca := hbeat a hacc_cases
                  have ha8 := hacc a hacc_cases
                  refine hC ⟨hxa, Or.inr ?_⟩
                  rw [hacc_cases]
                  simp only [Option.getD, BlockFree.block_size]
                  omega
              refine Or.inr ⟨b :: l1, l2, by rw [hdec, List.cons_append], hade, hbeat, ?_, ?_⟩
              · intro x hx hxa
                rcases List.mem_cons.mp hx with rfl | hx'
                · exact Nat.le_of_lt (hstep2 hxa)
                · exact hmin x hx' hxa
              · intro x hx hxa
                rcases List.mem_cons.mp hx with rfl | hx'
                · exact hstep2 hxa
                · exact hstrict x hx' hxa

/-- Helper: the second large-list pass removes exactly the chosen node
when node addresses are distinct. -/
theorem remove_block_decomp (c : BlockFree) :
    ∀ (l1 l2 : List BlockFree),
    (((l1 ++ c :: l2).map BlockFree.addr).Nodup) →
    remove_block_at_addr c.addr (l1 ++ c :: l2) = Option.some (c, l1 ++ l2) := by
  intro l1
  induction l1 with
  | nil =>
      intro l2 _
      simp [remove_block_at_addr]
  | cons b t ih =>
      intro l2 hnd
      simp only [List.cons_append, List.map_cons, List.nodup_cons] at hnd
      have hb : b.addr ≠ c.addr := by
        intro hcon
        exact hnd.1 (by simp [hcon])
      simp only [List.cons_append, remove_block_at_addr, if_neg hb, List.append_eq]
      rw [ih l2 hnd.2]

/-- C6: for a footprint above MAX_EXACT_SIZE, when the large list holds
an adequate block, get_free_block unlinks and returns the smallest
adequate block, and among equal smallest adequate blocks the one
earliest in the list. -/
theorem C6_best_fit (st : Reserve) (bsize : Nat)
    (hbig : MAX_EXACT_SIZE < bsize)
    (hal : ∀ b ∈ st.large_blocks, b.size % EXACT_MATCH_INCREMENT = 0)
    (hnd : (st.large_blocks.map BlockFree.addr).Nodup)
    (hex : ∃ b ∈ st.large_blocks, bsize ≤ b.size) :
    ∃ c l1 l2,
      st.large_blocks = l1 ++ c :: l2 ∧
      bsize ≤ c.size ∧
      (∀ b ∈ st.large_blocks, bsize ≤ b.size → c.size ≤ b.size) ∧
      (∀ b ∈ l1, bsize ≤ b.size → c.size < b.size) ∧
      st.get_free_block bsize =
        (Option.some c, { st with large_blocks := l1 ++ l2 }) := by
  have hmain := find_suit_go bsize st.large_blocks Option.none hal (by simp)
  cases hfind : find_suit_block bsize st.large_blocks Option.none with
  | none =>
      rw [hfind] at hmain
      obtain ⟨-, hsmall⟩ := hmain
      obtain ⟨b, hb, hbs⟩ := hex
      exact absurd (hsmall b hb) (by omega)
  | some c =>
      rw [hfind] at hmain
      rcases hmain with ⟨heq, -⟩ | ⟨l1, l2, hdec, hade, -, hmin, hstrict⟩
      · exact absurd heq (by simp)
      · have hrm : remove_block_at_addr c.addr st.large_blocks =
            Option.some (c, l1 ++ l2) := by
          rw [hdec]
          exact remove_block_decomp c l1 l2 (by rw [← hdec]; exact hnd)
        refine ⟨c, l1, l2, hdec, hade, hmin, hstrict, ?_⟩
        unfold Reserve.get_free_block
        rw [if_neg (by omega : ¬ bsize ≤ MAX_EXACT_SIZE)]
        rw [hfind]
        simp only [hrm]

/-- Witness for C6: on a concrete large list with a tie at size 2504,
the earliest tied block (addr 0x2000) is chosen and unlinked. -/
theorem C6_best_fit_witness :
    ∃ c l1 l2,
      rsv_large.large_blocks = l1 ++ c :: l2 ∧
      2400 ≤ c.size ∧
      (∀ b ∈ rsv_large.large_blocks, 2400 ≤ b.size → c.size ≤ b.size) ∧
      (∀ b ∈ l1, 2400 ≤ b.size → c.size < b.size) ∧
      rsv_large.get_free_block 2400 =
        (Option.some c, { rsv_large with large_blocks := l1 ++ l2 }) :=
  C6_best_fit rsv_large 2400 (by decide) (by decide) (by decide)
    ⟨{ addr := 0x2000, size := 2504 }, by decide, by decide⟩

/-- Helper: size_mask always yields a multiple of 8. -/
theorem size_mask_mod (n : Nat) : size_mask n % EXACT_MATCH_INCREMENT = 0 := by
  simp only [size_mask, EXACT_MATCH_INCREMENT]
  omega

/-- Helper: the predicate established by a successful
find_chunk_with_block. -/
theorem find_chunk_pred (chunks : List Chunk) (ba bs i : Nat)
    (h : find_chunk_with_block chunks ba bs = Option.some i) :
    bs ≠ 0 ∧ i < chunks.length ∧
    (chunks.getD i (Chunk.new 0 0)).base ≤ ba ∧
    ba + bs ≤ (chunks.getD i (Chunk.new 0 0)).base + (chunks.getD i (Chunk.new 0 0)).used := by
  unfold find_chunk_with_block at h
  by_cases hbs : bs = 0
  · rw [if_pos hbs] at h
    cases h
  · rw [if_neg hbs] at h
    obtain ⟨hlt, hpred, -⟩ := List.findIdx?_eq_some_iff_getElem.mp h
    have hgetd : chunks.getD i (Chunk.new 0 0) = chunks.get ⟨i, hlt⟩ := by
      simp [List.getD_eq_getElem?_getD, List.getElem?_eq_getElem hlt]
    rw [hgetd]
    simp only [decide_eq_true_eq] at hpred
    exact ⟨hbs, hlt, hpred.1, hpred.2⟩

/-- C7: efree panics (returns none) exactly when no chunk's used region
contains the whole block; a block ending at the chunk's bump top only
decrements used (no list change); any other block is pushed onto the
exact list matching its size, or the large list above MAX_EXACT_SIZE. -/
theorem C7_efree (st : Reserve) (mem : Nat → Nat) (p ba bs : Nat)
    (hba : ba = p - HEADER_SIZE) (hbs : bs = size_mask (mem ba)) :
    (find_chunk_with_block st.chunks ba bs = Option.none →
      st.efree mem p = Option.none) ∧
    (∀ i c, find_chunk_with_block st.chunks ba bs = Option.some i →
      st.chunks.getD i (Chunk.new 0 0) = c →
      ((ba + bs = c.base + c.used →
        st.efree mem p =
          Option.some { st with chunks := st.chunks.set i { c with used := c.used - bs } }) ∧
       (ba + bs ≠ c.base + c.used →
        st.efree mem p = Option.some (st.put_free_block { addr := ba, size := bs }) ∧
        (st.put_free_block { addr := ba, size := bs }).chunks = st.chunks ∧
        (bs ≤ MAX_EXACT_SIZE →
          (st.put_free_block { addr := ba, size := bs }).exact_blocks =
            st.exact_blocks.set (Reserve.get_list_idx bs)
              ({ addr := ba, size := bs } ::
                st.exact_blocks.getD (Reserve.get_list_idx bs) []) ∧
          (st.put_free_block { addr := ba, size := bs }).large_blocks = st.large_blocks) ∧
        (MAX_EXACT_SIZE < bs →
          (st.put_free_block { addr := ba, size := bs }).large_blocks =
            { addr := ba, size := bs } :: st.large_blocks ∧
          (st.put_free_block { addr := ba, size := bs }).exact_blocks =
            st.exact_blocks)))) := by
  have h8 : bs % EXACT_MATCH_INCREMENT = 0 := by
    rw [hbs]
    exact size_mask_mod (mem ba)
  have hbsz : BlockFree.block_size { addr := ba, size := bs } = bs := by
    simp only [BlockFree.block_size]
    omega
  constructor
  · intro hnone
    simp only [Reserve.efree, ← hba, ← hbs, hnone]
  · intro i c hi hc
    have hpred := find_chunk_pred st.chunks ba bs i hi
    rw [hc] at hpred
    constructor
    · intro htop
      have hcond : ba + bs - c.base = c.used := by omega
      simp only [Reserve.efree, ← hba, ← hbs, hi, hc, if_pos hcond]
    · intro hne
      have hcond : ¬(ba + bs - c.base = c.used) := by omega
      refine ⟨?_, ?_, ?_, ?_⟩
      · simp only [Reserve.efree, ← hba, ← hbs, hi, hc, if_neg hcond]
      · simp only [Reserve.put_free_block]
        split <;> rfl
      · intro hsmall
        simp only [Reserve.put_free_block, hbsz, if_pos hsmall]
        exact ⟨by simp, by simp⟩
      · intro hlarge
        simp only [Reserve.put_free_block, hbsz,
          if_neg (by omega : ¬ bs ≤ MAX_EXACT_SIZE)]
        exact ⟨by simp, by simp⟩

/-- Witness for C7: freeing the top block of the concrete chunk state
decrements used by 32. -/
theorem C7_efree_witness :
    rsv_chunk.efree mem_c7 0x1028 = Option.some ({ rsv_chunk with chunks := rsv_chunk.chunks.set 0 ⟨0x1000, 0x10000, 32⟩ }) := by
  have h := (C7_efree rsv_chunk mem_c7 0x1028 0x1020 32 (by decide) (by decide)).2 0
    ⟨0x1000, 0x10000, 64⟩ (by decide) (by decide)
  exact h.1 (by decide)

/-- Helper: each chunk after a bump walk is an original chunk with its
used either unchanged or advanced by bsize, and a non-zero bump address
is base + used of an original chunk. -/
theorem bump_chunks_spec (bsize : Nat) : ∀ (l : List Chunk),
    (∀ c' ∈ (bump_chunks bsize l).2, ∃ c ∈ l, c'.base = c.base ∧
      (c'.used = c.used ∨ c'.used = c.used + bsize)) ∧
    ((bump_chunks bsize l).1 = 0 ∨
      ∃ c ∈ l, (bump_chunks bsize l).1 = c.base + c.used) := by
  intro l
  induction l with
  | nil => exact ⟨by simp [bump_chunks], Or.inl rfl⟩
  | cons c rest ih =>
      by_cases hfit : bsize ≤ c.size - c.used
      · have hstep : bump_chunks bsize (c :: rest) =
            (c.base + c.used, { c with used := c.used + bsize } :: rest) := by
          simp [bump_chunks, hfit]
        rw [hstep]
        constructor
        · intro c' hc'
          rcases List.mem_cons.mp hc' with rfl | hmem
          · exact ⟨c, by simp, rfl, Or.inr rfl⟩
          · exact ⟨c', by simp [hmem], rfl, Or.inl rfl⟩
        · exact Or.inr ⟨c, by simp, rfl⟩
      · have hstep : bump_chunks bsize (c :: rest) =
            ((bump_chunks bsize rest).1, c :: (bump_chunks bsize rest).2) := by
          simp [bump_chunks, hfit]
        rw [hstep]
        constructor
        · intro c' hc'
          rcases List.mem_cons.mp hc' with rfl | hmem
          · exact ⟨c', by simp, rfl, Or.inl rfl⟩
          · obtain ⟨c0, hc0, hb, hu⟩ := ih.1 c' hmem
            exact ⟨c0, by simp [hc0], hb, hu⟩
        · rcases ih.2 with h0 | ⟨c0, hc0, he⟩
          · exact Or.inl h0
          · exact Or.inr ⟨c0, by simp [hc0], he⟩

/-- Helper: a get_free_block miss leaves the reserve state unchanged. -/
theorem get_free_block_miss (st : Reserve) (bsize : Nat)
    (h : (st.get_free_block bsize).1 = Option.none) :
    (st.get_free_block bsize).2 = st := by
  unfold Reserve.get_free_block at h ⊢
  by_cases hb : bsize ≤ MAX_EXACT_SIZE
  · rw [if_pos hb] at h ⊢
    unfold Reserve.get_exact_block at h ⊢
    cases hL : st.exact_blocks.getD (Reserve.get_list_idx bsize) [] with
    | nil =>
        simp only [hL] at h ⊢
        simp
    | cons x t =>
        simp only [hL] at h
        simp at h
  · rw [if_neg hb] at h ⊢
    cases hf : find_suit_block bsize st.large_blocks Option.none with
    | none => simp [hf]
    | some s =>
        cases hr : remove_block_at_addr s.addr st.large_blocks with
        | none => simp [hf, hr]
        | some br => simp [hf, hr] at h

/-- Helper: the node returned by the removal pass is a member of the
list. -/
theorem remove_block_mem (a : Nat) : ∀ (l : List BlockFree) (b : BlockFree)
    (rest : List BlockFree),
    remove_block_at_addr a l = Option.some (b, rest) → b ∈ l := by
  intro l
  induction l with
  | nil => intro b rest h; cases h
  | cons x t ih =>
      intro b rest h
      unfold remove_block_at_addr at h
      by_cases hx : x.addr = a
      · rw [if_pos hx] at h
        injection h with h'
        rw [show b = x by injection h' with h1 _; exact h1.symm]
        simp
      · rw [if_neg hx] at h
        cases hr : remove_block_at_addr a t with
        | none => rw [hr] at h; cases h
        | some br =>
            rw [hr] at h
            obtain ⟨b0, rest0⟩ := br
            injection h with h'
            have hb : b = b0 := by injection h' with h1 _; exact h1.symm
            exact List.mem_cons_of_mem x (hb ▸ ih b0 rest0 hr)

/-- Helper: a block handed out by get_free_block comes from an exact
list or from the large list. -/
theorem get_free_block_hit_mem (st : Reserve) (bsize : Nat) (b : BlockFree)
    (st' : Reserve) (h : st.get_free_block bsize = (Option.some b, st')) :
    (∃ idx, b ∈ st.exact_blocks.getD idx []) ∨ b ∈ st.large_blocks := by
  unfold Reserve.get_free_block at h
  by_cases hb : bsize ≤ MAX_EXACT_SIZE
  · rw [if_pos hb] at h
    unfold Reserve.get_exact_block at h
    cases hL : st.exact_blocks.getD (Reserve.get_list_idx bsize) [] with
    | nil =>
        simp only [hL] at h
        simp at h
    | cons x t =>
        simp only [hL] at h
        simp at h
        refine Or.inl ⟨Reserve.get_list_idx bsize, ?_⟩
        rw [hL, ← h.1]
        simp
  · rw [if_neg hb] at h
    cases hf : find_suit_block bsize st.large_blocks Option.none with
    | none => simp [hf] at h
    | some s =>
        cases hr : remove_block_at_addr s.addr st.large_blocks with
        | none => simp [hf, hr] at h
        | some br =>
            obtain ⟨b0, rest0⟩ := br
            simp [hf, hr] at h
            exact Or.inr (h.1 ▸ remove_block_mem s.addr st.large_blocks b0 rest0 hr)

/-- Helper: the emalloc footprint is always a multiple of 8. -/
theorem emalloc_bsize_mod (n : Nat) :
    emalloc_bsize n % EXACT_MATCH_INCREMENT = 0 := by
  simp only [emalloc_bsize, round_to, HEADER_SIZE, EXACT_MATCH_INCREMENT,
    MIN_BLOCK_SIZE, Nat.max_def]
  split <;> omega

/-- Helper: a member of an exact list selected through getD is a member
of some stored exact list. -/
theorem exact_getD_aligned (st : Reserve) (idx : Nat) (b : BlockFree)
    (hmem : b ∈ st.exact_blocks.getD idx [])
    (hex : ∀ lst ∈ st.exact_blocks, ∀ x ∈ lst, x.addr % EXACT_MATCH_INCREMENT = 0) :
    b.addr % EXACT_MATCH_INCREMENT = 0 := by
  by_cases hidx : idx < st.exact_blocks.length
  · have hg : st.exact_blocks.getD idx [] = st.exact_blocks.get ⟨idx, hidx⟩ := by
      simp [List.getD_eq_getElem?_getD, List.getElem?_eq_getElem hidx]
    rw [hg] at hmem
    exact hex _ (st.exact_blocks.get_mem idx hidx) b hmem
  · rw [List.getD_eq_getElem?_getD, List.getElem?_eq_none (by omega)] at hmem
    simp at hmem

/-- Helper: bumping preserves base and used alignment of every chunk. -/
theorem bump_chunks_align (bsize : Nat) (l : List Chunk)
    (h8 : bsize % EXACT_MATCH_INCREMENT = 0)
    (hch : ∀ c ∈ l, c.base % EXACT_MATCH_INCREMENT = 0 ∧
      c.used % EXACT_MATCH_INCREMENT = 0) :
    ∀ c' ∈ (bump_chunks bsize l).2, c'.base % EXACT_MATCH_INCREMENT = 0 ∧
      c'.used % EXACT_MATCH_INCREMENT = 0 := by
  intro c' hc'
  obtain ⟨c, hc, hb, hu⟩ := (bump_chunks_spec bsize l).1 c' hc'
  have hcc := hch c hc
  simp only [EXACT_MATCH_INCREMENT] at h8 hcc ⊢
  rcases hu with h | h <;> exact ⟨by omega, by omega⟩

/-- Helper: the state component of alloc_from_chunks is the bumped
chunk list with everything else unchanged. -/
theorem alloc_from_chunks_state (st : Reserve) (bsize : Nat) :
    ((st.alloc_from_chunks bsize).2).chunks = (bump_chunks bsize st.chunks).2 ∧
    ((st.alloc_from_chunks bsize).2).incr_size = st.incr_size := by
  unfold Reserve.alloc_from_chunks
  cases hb : bump_chunks bsize st.chunks with
  | mk a ch =>
      by_cases ha : a = 0 <;> simp [ha]

/-- Helper: a block handed out from a chunk bump starts at base + used
of an existing chunk, so it is 8-aligned when chunks are. -/
theorem alloc_from_chunks_aligned (st : Reserve) (bsize : Nat) (b : BlockFree)
    (st2 : Reserve) (h : st.alloc_from_chunks bsize = (Option.some b, st2))
    (hch : ∀ c ∈ st.chunks, c.base % EXACT_MATCH_INCREMENT = 0 ∧
      c.used % EXACT_MATCH_INCREMENT = 0) :
    b.addr % EXACT_MATCH_INCREMENT = 0 := by
  unfold Reserve.alloc_from_chunks at h
  by_cases ha : (bump_chunks bsize st.chunks).1 = 0
  · simp [ha] at h
  · simp only [ha, if_false] at h
    have hfst := congrArg Prod.fst h
    simp at hfst
    have hb : b.addr = (bump_chunks bsize st.chunks).1 := by
      rw [← hfst]
    rcases (bump_chunks_spec bsize st.chunks).2 with h0 | ⟨c, hc, he⟩
    · exact absurd h0 ha
    · have hcc := hch c hc
      rw [hb, he]
      simp only [EXACT_MATCH_INCREMENT] at hcc ⊢
      omega

/-- Helper: the chunk list after add_chunks_state. -/
theorem add_chunks_state_chunks (st : Reserve) (base rsize : Nat) :
    (st.add_chunks_state base rsize).chunks =
      Chunk.new (base + CHUNK_HEADER_SIZE)
        (max st.incr_size rsize - CHUNK_HEADER_SIZE) :: st.chunks := rfl

/-- C9: chunk.used starts at 0 and stays a multiple of 8: the emalloc
footprint is a multiple of 8, every bump adds it, and the
top-of-bump free subtracts a masked (8-aligned) block size; with
8-aligned chunk bases and free-list nodes, every payload address
emalloc returns is 8-aligned. -/
theorem C9_alignment :
    (∀ b s, (Chunk.new b s).used = 0) ∧
    (∀ n, emalloc_bsize n % EXACT_MATCH_INCREMENT = 0) ∧
    (∀ (l : List Chunk) (bsize : Nat), bsize % EXACT_MATCH_INCREMENT = 0 →
      (∀ c ∈ l, c.used % EXACT_MATCH_INCREMENT = 0) →
      ∀ c' ∈ (bump_chunks bsize l).2, c'.used % EXACT_MATCH_INCREMENT = 0) ∧
    (∀ (st : Reserve) (mem : Nat → Nat) (p : Nat) (st' : Reserve),
      st.efree mem p = Option.some st' →
      (∀ c ∈ st.chunks, c.used % EXACT_MATCH_INCREMENT = 0) →
      ∀ c' ∈ st'.chunks, c'.used % EXACT_MATCH_INCREMENT = 0) ∧
    (∀ (st : Reserve) (grow : Except OsError Nat) (n p : Nat) (st' : Reserve),
      (∀ c ∈ st.chunks, c.base % EXACT_MATCH_INCREMENT = 0 ∧
        c.used % EXACT_MATCH_INCREMENT = 0) →
      (∀ lst ∈ st.exact_blocks, ∀ b ∈ lst, b.addr % EXACT_MATCH_INCREMENT = 0) →
      (∀ b ∈ st.large_blocks, b.addr % EXACT_MATCH_INCREMENT = 0) →
      (∀ base, grow = Except.ok base →
        (base + CHUNK_HEADER_SIZE) % EXACT_MATCH_INCREMENT = 0) →
      st.emalloc grow n = Except.ok (p, st') →
      p % EXACT_MATCH_INCREMENT = 0) := by
  refine ⟨fun b s => rfl, emalloc_bsize_mod, ?_, ?_, ?_⟩
  · intro l bsize h8 hl c' hc'
    obtain ⟨c, hc, -, hu⟩ := (bump_chunks_spec bsize l).1 c' hc'
    have hcc := hl c hc
    simp only [EXACT_MATCH_INCREMENT] at h8 hcc ⊢
    rcases hu with h | h <;> omega
  · intro st mem p st' hfree hl c' hc'
    unfold Reserve.efree at hfree
    cases hfc : find_chunk_with_block st.chunks (p - HEADER_SIZE)
        (size_mask (mem (p - HEADER_SIZE))) with
    | none =>
        simp only [hfc] at hfree
        cases hfree
    | some i =>
        simp only [hfc] at hfree
        have hpred := find_chunk_pred st.chunks (p - HEADER_SIZE)
          (size_mask (mem (p - HEADER_SIZE))) i hfc
        by_cases htop : (p - HEADER_SIZE) + size_mask (mem (p - HEADER_SIZE)) -
            (st.chunks.getD i (Chunk.new 0 0)).base =
            (st.chunks.getD i (Chunk.new 0 0)).used
        · rw [if_pos htop] at hfree
          have hst' : st'.chunks = st.chunks.set i
              { st.chunks.getD i (Chunk.new 0 0) with
                used := (st.chunks.getD i (Chunk.new 0 0)).used -
                  size_mask (mem (p - HEADER_SIZE)) } := by
            cases hfree
            rfl
          rw [hst'] at hc'
          rcases List.mem_or_eq_of_mem_set hc' with hmem | rfl
          · exact hl c' hmem
          · have hg : st.chunks.getD i (Chunk.new 0 0) ∈ st.chunks := by
              have hgi : st.chunks.getD i (Chunk.new 0 0) =
                  st.chunks.get ⟨i, hpred.2.1⟩ := by
                simp [List.getD_eq_getElem?_getD, List.getElem?_eq_getElem hpred.2.1]
              rw [hgi]
              exact st.chunks.get_mem i hpred.2.1
            have hused := hl _ hg
            have hmask := size_mask_mod (mem (p - HEADER_SIZE))
            simp only [EXACT_MATCH_INCREMENT] at hused hmask ⊢
            omega
        · rw [if_neg htop] at hfree
          have hst' : st'.chunks = st.chunks := by
            cases hfree
            unfold Reserve.put_free_block
            by_cases hb : BlockFree.block_size
                { addr := p - HEADER_SIZE, size := size_mask (mem (p - HEADER_SIZE)) } ≤
                MAX_EXACT_SIZE <;> simp [hb]
          rw [hst'] at hc'
          exact hl c' hc'
  · intro st grow n p st' hch hex hlg hgrow hok
    have h8 := emalloc_bsize_mod n
    simp only [Reserve.emalloc] at hok
    cases hgf : st.get_free_block (emalloc_bsize n) with
    | mk ob st1 =>
    rw [hgf] at hok
    cases ob with
    | some b =>
        simp only [Except.ok.injEq, Prod.mk.injEq] at hok
        have hb8 : b.addr % EXACT_MATCH_INCREMENT = 0 := by
          rcases get_free_block_hit_mem st (emalloc_bsize n) b st1 hgf with
            ⟨idx, hmem⟩ | hmem
          · exact exact_getD_aligned st idx b hmem hex
          · exact hlg b hmem
        have hp : b.addr + HEADER_SIZE = p := hok.1
        simp only [HEADER_SIZE] at hp
        simp only [EXACT_MATCH_INCREMENT] at hb8 ⊢
        omega
    | none =>
        have hst1 : st1 = st := by
          have hm := get_free_block_miss st (emalloc_bsize n) (by rw [hgf])
          rw [hgf] at hm
          exact hm
        subst hst1
        simp only [] at hok
        cases haf : st1.alloc_from_chunks (emalloc_bsize n) with
        | mk ob2 st2 =>
        rw [haf] at hok
        cases ob2 with
        | some b =>
            simp only [Except.ok.injEq, Prod.mk.injEq] at hok
            have hb8 := alloc_from_chunks_aligned st1 (emalloc_bsize n) b st2 haf hch
            have hp : b.addr + HEADER_SIZE = p := hok.1
            simp only [HEADER_SIZE] at hp
            simp only [EXACT_MATCH_INCREMENT] at hb8 ⊢
            omega
        | none =>
            simp only [] at hok
            cases grow with
            | error e => simp at hok
            | ok base =>
                simp only [] at hok
                have hbase := hgrow base rfl
                have hst2 : st2 = (st1.alloc_from_chunks (emalloc_bsize n)).2 := by
                  rw [haf]
                have hch3 : ∀ c ∈ (st2.add_chunks_state base
                    (round_to (emalloc_bsize n + CHUNK_HEADER_SIZE) INIT_MEM_SIZE)).chunks,
                    c.base % EXACT_MATCH_INCREMENT = 0 ∧
                    c.used % EXACT_MATCH_INCREMENT = 0 := by
                  rw [add_chunks_state_chunks]
                  intro c hc
                  rcases List.mem_cons.mp hc with rfl | hmem
                  · exact ⟨hbase, by simp [Chunk.new]⟩
                  · have hst2c : st2.chunks = (bump_chunks (emalloc_bsize n) st1.chunks).2 := by
                      rw [hst2]
                      exact (alloc_from_chunks_state st1 (emalloc_bsize n)).1
                    rw [hst2c] at hmem
                    exact bump_chunks_align (emalloc_bsize n) st1.chunks h8 hch c hmem
                cases haf2 : (st2.add_chunks_state base
                    (round_to (emalloc_bsize n + CHUNK_HEADER_SIZE) INIT_MEM_SIZE)).alloc_from_chunks
                    (emalloc_bsize n) with
                | mk ob3 st4 =>
                rw [haf2] at hok
                cases ob3 with
                | some b =>
                    simp only [Except.ok.injEq, Prod.mk.injEq] at hok
                    have hb8 := alloc_from_chunks_aligned _ (emalloc_bsize n) b st4 haf2 hch3
                    have hp : b.addr + HEADER_SIZE = p := hok.1
                    simp only [HEADER_SIZE] at hp
                    simp only [EXACT_MATCH_INCREMENT] at hb8 ⊢
                    omega
                | none => simp at hok

/-- Witness for C9: a concrete bump allocation yields the 8-aligned
payload 0x1048. -/
theorem C9_alignment_witness :
    ∃ p st', rsv_chunk.emalloc (Except.ok 0x30000) 0 = Except.ok (p, st') ∧
      p % EXACT_MATCH_INCREMENT = 0 := by
  refine ⟨0x1048, _, rfl, ?_⟩
  exact C9_alignment.2.2.2.2 rsv_chunk (Except.ok 0x30000) 0 0x1048 _
    (by decide) (by decide) (by decide)
    (fun base hb => by
      injection hb with h
      simp only [CHUNK_HEADER_SIZE, EXACT_MATCH_INCREMENT]
      omega) rfl

/-- Helper: the left half of a split is `[start, m)`. -/
theorem split_at_fst_range (x : Ema) (m : Nat) (h1 : x.start ≤ m) :
    (x.split_at m).1.start = x.start ∧ (x.split_at m).1.end_addr = m := by
  unfold Ema.split_at Ema.end_addr
  refine ⟨rfl, ?_⟩
  simp only [Ema.end_addr]
  omega

/-- Helper: the right half of a split is `[m, end)`. -/
theorem split_at_snd_range (x : Ema) (m : Nat) (h2 : m ≤ x.end_addr) :
    (x.split_at m).2.start = m ∧ (x.split_at m).2.end_addr = x.end_addr := by
  unfold Ema.split_at Ema.end_addr
  refine ⟨rfl, ?_⟩
  simp only [Ema.end_addr] at h2 ⊢
  omega

/-- Helper: prepending equal-page-view tails under a common prefix. -/
theorem page_view_append_congr (pre : List Ema) (l1 l2 : List Ema) (a : Nat)
    (h : page_view l1 a = page_view l2 a) :
    page_view (pre ++ l1) a = page_view (pre ++ l2) a := by
  induction pre with
  | nil => simpa using h
  | cons y t ih =>
      unfold page_view
      simp only [List.cons_append, List.find?_cons]
      by_cases hy : (decide (y.start ≤ a ∧ a < y.end_addr)) = true
      · rw [hy]
      · rw [Bool.not_eq_true] at hy
        rw [hy]
        exact ih

/-- Helper: replacing the head EMA by its two halves at an aligned
interior point preserves every address's page view. -/
theorem page_view_cons_split (x : Ema) (m : Nat) (post : List Ema)
    (h1 : x.start < m) (h2 : m < x.end_addr)
    (hsx : x.start % SE_PAGE_SIZE = 0) (hm : m % SE_PAGE_SIZE = 0) (a : Nat) :
    page_view ((x.split_at m).1 :: (x.split_at m).2 :: post) a =
      page_view (x :: post) a := by
  have hA := split_at_fst_range x m (by omega)
  have hB := split_at_snd_range x m (by omega)
  unfold page_view
  simp only [List.find?_cons]
  by_cases hxl : a < x.start
  · have hpx : (decide (x.start ≤ a ∧ a < x.end_addr)) = false := by simp; omega
    have hpA : (decide ((x.split_at m).1.start ≤ a ∧ a < (x.split_at m).1.end_addr))
        = false := by rw [hA.1, hA.2]; simp; omega
    have hpB : (decide ((x.split_at m).2.start ≤ a ∧ a < (x.split_at m).2.end_addr))
        = false := by rw [hB.1, hB.2]; simp; omega
    rw [hpx, hpA, hpB]
  · by_cases hxr : x.end_addr ≤ a
    · have hpx : (decide (x.start ≤ a ∧ a < x.end_addr)) = false := by simp; omega
      have hpA : (decide ((x.split_at m).1.start ≤ a ∧ a < (x.split_at m).1.end_addr))
          = false := by rw [hA.1, hA.2]; simp; omega
      have hpB : (decide ((x.split_at m).2.start ≤ a ∧ a < (x.split_at m).2.end_addr))
          = false := by rw [hB.1, hB.2]; simp; omega
      rw [hpx, hpA, hpB]
    · have hpx : (decide (x.start ≤ a ∧ a < x.end_addr)) = true := by simp; omega
      by_cases hle : a < m
      · have hpA : (decide ((x.split_at m).1.start ≤ a ∧ a < (x.split_at m).1.end_addr))
            = true := by rw [hA.1, hA.2]; simp; omega
        rw [hpx, hpA]
        simp only [Option.map_some]
        refine congrArg Option.some ?_
        show (x.alloc_flags, x.info, x.alloc,
          (x.eaccept_map.take ((m - x.start) / SE_PAGE_SIZE)).getD
            ((a - x.start) / SE_PAGE_SIZE) false) =
          (x.alloc_flags, x.info, x.alloc,
            x.eaccept_map.getD ((a - x.start) / SE_PAGE_SIZE) false)
        refine congrArg (fun t => (x.alloc_flags, x.info, x.alloc, t)) ?_
        rw [List.getD_eq_getElem?_getD, List.getD_eq_getElem?_getD,
          List.getElem?_take_of_lt]
        simp only [SE_PAGE_SIZE] at hsx hm ⊢
        omega
      · have hpA : (decide ((x.split_at m).1.start ≤ a ∧ a < (x.split_at m).1.end_addr))
            = false := by rw [hA.1, hA.2]; simp; omega
        have hpB : (decide ((x.split_at m).2.start ≤ a ∧ a < (x.split_at m).2.end_addr))
            = true := by rw [hB.1, hB.2]; simp; omega
        rw [hpx, hpA, hpB]
        simp only [Option.map_some]
        refine congrArg Option.some ?_
        show (x.alloc_flags, x.info, x.alloc,
          (x.eaccept_map.drop ((m - x.start) / SE_PAGE_SIZE)).getD
            ((a - m) / SE_PAGE_SIZE) false) =
          (x.alloc_flags, x.info, x.alloc,
            x.eaccept_map.getD ((a - x.start) / SE_PAGE_SIZE) false)
        refine congrArg (fun t => (x.alloc_flags, x.info, x.alloc, t)) ?_
        rw [List.getD_eq_getElem?_getD, List.getD_eq_getElem?_getD,
          List.getElem?_drop]
        have hieq : (m - x.start) / SE_PAGE_SIZE + (a - m) / SE_PAGE_SIZE =
            (a - x.start) / SE_PAGE_SIZE := by
          simp only [SE_PAGE_SIZE] at hsx hm ⊢
          omega
        rw [hieq]

/-- Helper: splitting any EMA of a list at an aligned interior point
preserves every address's page view. -/
theorem page_view_replace_split (l : List Ema) (i : Nat) (x : Ema) (m : Nat)
    (hi : i < l.length) (hx : l.getD i Ema.dummy = x)
    (h1 : x.start < m) (h2 : m < x.end_addr)
    (hsx : x.start % SE_PAGE_SIZE = 0) (hm : m % SE_PAGE_SIZE = 0) (a : Nat) :
    page_view (replace_at l i [(x.split_at m).1, (x.split_at m).2]) a =
      page_view l a := by
  have hdecomp : l = l.take i ++ x :: l.drop (i + 1) := by
    conv_lhs => rw [← List.take_append_drop i l]
    congr 1
    rw [← List.getElem_cons_drop l i hi]
    congr 1
    rw [← hx]
    simp [List.getD_eq_getElem?_getD, List.getElem?_eq_getElem hi]
  unfold replace_at
  conv_rhs => rw [hdecomp]
  have hcore := page_view_cons_split x m (l.drop (i + 1)) h1 h2 hsx hm a
  have := page_view_append_congr (l.take i)
    ((x.split_at m).1 :: (x.split_at m).2 :: l.drop (i + 1))
    (x :: l.drop (i + 1)) a hcore
  simpa using this

/-- Helper: full case analysis of a successful splitting range search:
the first EMA index, the count, and the exact shape of the returned
list (at most a split of the first EMA at s and of the last at e). -/
theorem search_split_cases (l : List Ema) (s e : Nat) (c : Bool) (l2 : List Ema)
    (i1 n : Nat)
    (h : search_ema_range l s e c true = Option.some (l2, i1, n)) :
    ∃ e0,
      (l.findIdx fun y => !y.lower_than_addr s) < l.length ∧
      l.getD (l.findIdx fun y => !y.lower_than_addr s) Ema.dummy = e0 ∧
      s < e0.end_addr ∧ e0.start < e ∧
      n = ((l.drop (l.findIdx fun y => !y.lower_than_addr s)).takeWhile
            fun y => !y.higher_than_addr e).length ∧
      ((¬ e0.start < s ∧ i1 = (l.findIdx fun y => !y.lower_than_addr s) ∧
        ((¬ e < (l.getD (i1 + n - 1) Ema.dummy).end_addr ∧ l2 = l) ∨
         (e < (l.getD (i1 + n - 1) Ema.dummy).end_addr ∧
           l2 = replace_at l (i1 + n - 1)
             [((l.getD (i1 + n - 1) Ema.dummy).split_at e).1,
              ((l.getD (i1 + n - 1) Ema.dummy).split_at e).2]))) ∨
       (e0.start < s ∧ i1 = (l.findIdx fun y => !y.lower_than_addr s) + 1 ∧
        ((¬ e < ((replace_at l (i1 - 1) [(e0.split_at s).1, (e0.split_at s).2]).getD
            (i1 + n - 1) Ema.dummy).end_addr ∧
          l2 = replace_at l (i1 - 1) [(e0.split_at s).1, (e0.split_at s).2]) ∨
         (e < ((replace_at l (i1 - 1) [(e0.split_at s).1, (e0.split_at s).2]).getD
            (i1 + n - 1) Ema.dummy).end_addr ∧
          l2 = replace_at
            (replace_at l (i1 - 1) [(e0.split_at s).1, (e0.split_at s).2]) (i1 + n - 1)
            [(((replace_at l (i1 - 1) [(e0.split_at s).1, (e0.split_at s).2]).getD
                (i1 + n - 1) Ema.dummy).split_at e).1,
             (((replace_at l (i1 - 1) [(e0.split_at s).1, (e0.split_at s).2]).getD
                (i1 + n - 1) Ema.dummy).split_at e).2])))) := by
  simp only [search_ema_range] at h
  cases hget : l[(l.findIdx fun y => !y.lower_than_addr s)]? with
  | none => rw [hget] at h; cases h
  | some e0 =>
      rw [hget] at h
      simp only [] at h
      have hi0 : (l.findIdx fun y => !y.lower_than_addr s) < l.length := by
        by_contra hcon
        rw [List.getElem?_eq_none (by omega)] at hget
        cases hget
      have he0 : l.getD (l.findIdx fun y => !y.lower_than_addr s) Ema.dummy = e0 := by
        simp [List.getD_eq_getElem?_getD, hget]
      have hp0 : s < e0.end_addr := by
        have := List.findIdx_of_getElem?_eq_some hget
        simp only [Ema.lower_than_addr, Bool.not_eq_true', decide_eq_false_iff_not] at this
        omega
      by_cases hhi : e0.higher_than_addr e = true
      · rw [if_pos hhi] at h
        cases h
      · rw [if_neg hhi] at h
        have hq0 : e0.start < e := by
          simp only [Ema.higher_than_addr, decide_eq_true_eq] at hhi
          omega
        by_cases hcc : (c && !adjacent_ok ((l.drop
            (l.findIdx fun y => !y.lower_than_addr s)).takeWhile
            fun y => !y.higher_than_addr e)) = true
        · rw [if_pos hcc] at h
          cases h
        · rw [if_neg hcc] at h
          rw [if_pos trivial] at h
          by_cases hs1 : e0.start < s
          · rw [if_pos hs1] at h
            simp only [] at h
            by_cases hs2 : e < ((replace_at l (l.findIdx fun y => !y.lower_than_addr s)
                [(e0.split_at s).1, (e0.split_at s).2]).getD
                ((l.findIdx fun y => !y.lower_than_addr s) + 1 +
                  ((l.drop (l.findIdx fun y => !y.lower_than_addr s)).takeWhile
                    fun y => !y.higher_than_addr e).length - 1) Ema.dummy).end_addr
            · rw [if_pos hs2] at h
              simp only [Option.some.injEq, Prod.mk.injEq] at h
              obtain ⟨hl2, hi1, hn⟩ := h
              subst hi1
              subst hn
              refine ⟨e0, hi0, he0, hp0, hq0, rfl, Or.inr ⟨hs1, rfl, Or.inr ?_⟩⟩
              simp only [Nat.add_sub_cancel]
              exact ⟨hs2, hl2.symm⟩
            · rw [if_neg hs2] at h
              simp only [Option.some.injEq, Prod.mk.injEq] at h
              obtain ⟨hl2, hi1, hn⟩ := h
              subst hi1
              subst hn
              refine ⟨e0, hi0, he0, hp0, hq0, rfl, Or.inr ⟨hs1, rfl, Or.inl ?_⟩⟩
              simp only [Nat.add_sub_cancel]
              exact ⟨hs2, hl2.symm⟩
          · rw [if_neg hs1] at h
            simp only [] at h
            by_cases hs2 : e < (l.getD ((l.findIdx fun y => !y.lower_than_addr s) +
                ((l.drop (l.findIdx fun y => !y.lower_than_addr s)).takeWhile
                  fun y => !y.higher_than_addr e).length - 1) Ema.dummy).end_addr
            · rw [if_pos hs2] at h
              simp only [Option.some.injEq, Prod.mk.injEq] at h
              obtain ⟨hl2, hi1, hn⟩ := h
              subst hi1
              subst hn
              exact ⟨e0, hi0, he0, hp0, hq0, rfl, Or.inl ⟨hs1, rfl, Or.inr ⟨hs2, hl2.symm⟩⟩⟩
            · rw [if_neg hs2] at h
              simp only [Option.some.injEq, Prod.mk.injEq] at h
              obtain ⟨hl2, hi1, hn⟩ := h
              subst hi1
              subst hn
              exact ⟨e0, hi0, he0, hp0, hq0, rfl, Or.inl ⟨hs1, rfl, Or.inl ⟨hs2, hl2.symm⟩⟩⟩

/-- Helper: getD of a valid index is a member. -/
theorem getD_mem_of_lt {α : Type} (d : α) (l : List α) (i : Nat) (h : i < l.length) :
    l.getD i d ∈ l := by
  rw [List.getD_eq_getElem?_getD, List.getElem?_eq_getElem h]
  exact List.getElem_mem h

/-- Helper: replacing one element by two grows the length by one. -/
theorem replace_at_two_length {α : Type} (l : List α) (i : Nat) (a b : α)
    (h : i < l.length) : (replace_at l i [a, b]).length = l.length + 1 := by
  unfold replace_at
  simp [List.length_take, List.length_drop]
  omega

/-- Helper: the n-window at i0 after replacing the window's last element
(index i0 + n - 1) by two halves keeps the first n - 1 elements and ends
with the left half. -/
theorem window_replace_last {α : Type} (ll : List α) (i0 n : Nat) (B1 B2 : α)
    (hn1 : 1 ≤ n) (hlen : i0 + n ≤ ll.length) :
    ((replace_at ll (i0 + n - 1) [B1, B2]).drop i0).take n =
      ((ll.drop i0).take (n - 1)) ++ [B1] := by
  unfold replace_at
  rw [List.drop_append_eq_append_drop, List.drop_append_eq_append_drop, List.drop_take]
  have hXlen : (ll.take (i0 + n - 1)).length = i0 + n - 1 := by
    rw [List.length_take]
    omega
  have hXYlen : (ll.take (i0 + n - 1) ++ [B1, B2]).length = i0 + n + 1 := by
    rw [List.length_append, hXlen]
    simp
    omega
  rw [hXlen, hXYlen]
  have h0 : i0 - (i0 + n - 1) = 0 := by omega
  have h0' : i0 - (i0 + n + 1) = 0 := by omega
  rw [h0, h0', List.drop_zero, List.drop_zero]
  have hj : i0 + n - 1 - i0 = n - 1 := by omega
  have hz : i0 + n - 1 + 1 = i0 + n := by omega
  rw [hj, hz]
  rw [List.take_append_eq_append_take, List.take_append_eq_append_take]
  have hWlen : ((ll.drop i0).take (n - 1)).length = n - 1 := by
    rw [List.length_take, List.length_drop]
    omega
  rw [List.take_of_length_le (by rw [hWlen]; omega)]
  have hWYlen : ((ll.drop i0).take (n - 1) ++ [B1, B2]).length = n + 1 := by
    rw [List.length_append, hWlen]
    simp
    omega
  rw [hWlen, hWYlen]
  have h1 : n - (n - 1) = 1 := by omega
  have h2 : n - (n + 1) = 0 := by omega
  rw [h1, h2]
  simp

/-- Helper: after replacing the element at i0 by two halves, dropping
i0 + 1 starts at the right half. -/
theorem window_replace_first {α : Type} (ll : List α) (i0 : Nat) (A1 A2 : α)
    (hi0 : i0 < ll.length) :
    (replace_at ll i0 [A1, A2]).drop (i0 + 1) = A2 :: ll.drop (i0 + 1) := by
  unfold replace_at
  rw [List.drop_append_eq_append_drop, List.drop_append_eq_append_drop]
  have hXlen : (ll.take i0).length = i0 := by
    rw [List.length_take]
    omega
  have hXYlen : (ll.take i0 ++ [A1, A2]).length = i0 + 2 := by
    rw [List.length_append, hXlen]
    simp
  rw [List.drop_of_length_le (by rw [hXlen]; omega), hXlen, hXYlen]
  have h1 : i0 + 1 - i0 = 1 := by omega
  have h2 : i0 + 1 - (i0 + 2) = 0 := by omega
  rw [h1, h2, List.drop_zero]
  simp

/-- Helper: getD through drop. -/
theorem getD_drop {α : Type} (d : α) (l : List α) (i j : Nat) :
    (l.drop i).getD j d = l.getD (i + j) d := by
  rw [List.getD_eq_getElem?_getD, List.getD_eq_getElem?_getD, List.getElem?_drop]

/-- Helper: getD through take, below the cut. -/
theorem getD_take {α : Type} (d : α) (l : List α) (nn j : Nat) (h : j < nn) :
    (l.take nn).getD j d = l.getD j d := by
  rw [List.getD_eq_getElem?_getD, List.getD_eq_getElem?_getD, List.getElem?_take_of_lt h]

/-- Helper: a take of length k + 1 ends with the element at index k. -/
theorem take_last_decomp {α : Type} (d : α) (t : List α) (k : Nat)
    (h : k + 1 ≤ t.length) :
    t.take (k + 1) = t.take k ++ [t.getD k d] := by
  have hk : k < t.length := by omega
  rw [List.take_succ, List.getElem?_eq_getElem hk]
  simp [List.getD_eq_getElem?_getD, List.getElem?_eq_getElem hk]

/-- Helper: a successful splitting search preserves the per-address page
view, and the returned window of n EMAs at i1 matches the originally
selected EMAs attribute by attribute (flags, info, allocator). -/
theorem search_split_spec (l : List Ema) (s e : Nat) (c : Bool) (l2 : List Ema)
    (i1 n : Nat)
    (h : search_ema_range l s e c true = Option.some (l2, i1, n))
    (hse : s < e)
    (halign : ∀ x ∈ l, x.start % SE_PAGE_SIZE = 0)
    (hs8 : s % SE_PAGE_SIZE = 0) (he8 : e % SE_PAGE_SIZE = 0) :
    List.Forall₂
      (fun y x => y.alloc_flags = x.alloc_flags ∧ y.info = x.info ∧ y.alloc = x.alloc)
      ((l2.drop i1).take n)
      ((l.drop (l.findIdx fun y => !y.lower_than_addr s)).takeWhile
        fun y => !y.higher_than_addr e) ∧
    ∀ a, page_view l2 a = page_view l a := by
  obtain ⟨e0, hi0, he0, hsee0, hp0, hn, hcases⟩ := search_split_cases l s e c l2 i1 n h
  set i0 := (l.findIdx fun y => !y.lower_than_addr s) with hi0def
  set sel := ((l.drop i0).takeWhile fun y => !y.higher_than_addr e) with hseldef
  have hseltake : sel = (l.drop i0).take n := by
    rw [hn]
    exact List.prefix_iff_eq_take.mp (List.takeWhile_prefix _)
  have hfirst : l.drop i0 = e0 :: l.drop (i0 + 1) := by
    have hh : l[i0] = e0 := by
      rw [← he0]
      simp [List.getD_eq_getElem?_getD, List.getElem?_eq_getElem hi0]
    rw [← List.getElem_cons_drop l i0 hi0, hh]
  have hq0f : e0.higher_than_addr e = false := by
    simp [Ema.higher_than_addr]
    omega
  have hselcons : sel = e0 :: ((l.drop (i0 + 1)).takeWhile fun y => !y.higher_than_addr e) := by
    rw [hseldef, hfirst, List.takeWhile_cons]
    simp [hq0f]
  have hn1 : 1 ≤ n := by
    rw [hn, hselcons]
    simp
  have hnlen : i0 + n ≤ l.length := by
    have h1 : sel.length ≤ (l.drop i0).length := (List.takeWhile_prefix _).length_le
    rw [List.length_drop] at h1
    have h2 : n ≤ l.length - i0 := by rw [hn]; exact h1
    omega
  have hq0sel : ∀ y ∈ sel, y.start < e := by
    intro y hy
    rw [hseldef] at hy
    have := List.mem_takeWhile_imp hy
    simp [Ema.higher_than_addr] at this
    omega
  have hsub : ∀ y ∈ sel, y ∈ l := by
    intro y hy
    rw [hseldef] at hy
    exact List.drop_subset _ _ (List.takeWhile_subset _ hy)
  have hlast_eq : sel.getD (n - 1) Ema.dummy = l.getD (i0 + (n - 1)) Ema.dummy := by
    rw [hseltake, getD_take Ema.dummy _ n (n - 1) (by omega), getD_drop]
  have hlastmem : l.getD (i0 + (n - 1)) Ema.dummy ∈ sel := by
    rw [← hlast_eq]
    exact getD_mem_of_lt Ema.dummy sel (n - 1) (by rw [← hn]; omega)
  have he0mem : e0 ∈ l := by
    rw [← he0]
    exact getD_mem_of_lt Ema.dummy l i0 hi0
  have he0align : e0.start % SE_PAGE_SIZE = 0 := halign e0 he0mem
  have hseldecomp : sel = (l.drop i0).take (n - 1) ++ [l.getD (i0 + (n - 1)) Ema.dummy] := by
    have hd := take_last_decomp Ema.dummy (l.drop i0) (n - 1)
      (by rw [List.length_drop]; omega)
    rw [getD_drop] at hd
    conv_lhs => rw [hseltake, show n = n - 1 + 1 from by omega]
    rw [hd]
  have hseltail : ((l.drop (i0 + 1)).takeWhile fun y => !y.higher_than_addr e) =
      (l.drop (i0 + 1)).take (n - 1) := by
    have hlen : ((l.drop (i0 + 1)).takeWhile fun y => !y.higher_than_addr e).length = n - 1 := by
      have hx := hn
      rw [hselcons] at hx
      simp [List.length_cons] at hx
      omega
    rw [List.prefix_iff_eq_take.mp (List.takeWhile_prefix _), hlen]
  rcases hcases with ⟨hns, hi1eq, hinner⟩ | ⟨hs1, hi1eq, hinner⟩
  · subst hi1eq
    rcases hinner with ⟨hne, hl2⟩ | ⟨hlt, hl2⟩
    · subst hl2
      constructor
      · rw [hseltake]
        exact List.forall₂_same.mpr fun x _ => ⟨rfl, rfl, rfl⟩
      · intro a
        rfl
    · have hidx : i0 + n - 1 = i0 + (n - 1) := by omega
      rw [hidx] at hlt hl2
      subst hl2
      constructor
      · have hwin := window_replace_last l i0 n
          ((l.getD (i0 + (n - 1)) Ema.dummy).split_at e).1
          ((l.getD (i0 + (n - 1)) Ema.dummy).split_at e).2 hn1 hnlen
        rw [hidx] at hwin
        rw [hwin, hseldecomp]
        refine List.rel_append ?_ ?_
        · exact List.forall₂_same.mpr fun x _ => ⟨rfl, rfl, rfl⟩
        · exact List.Forall₂.cons ⟨rfl, rfl, rfl⟩ List.Forall₂.nil
      · intro a
        exact page_view_replace_split l (i0 + (n - 1)) (l.getD (i0 + (n - 1)) Ema.dummy) e
          (by omega) rfl (hq0sel _ hlastmem) hlt (halign _ (hsub _ hlastmem)) he8 a
  · subst hi1eq
    have hidx2 : i0 + 1 + n - 1 = i0 + n := by omega
    simp only [Nat.add_sub_cancel, hidx2] at hinner
    set l1 := replace_at l i0 [(e0.split_at s).1, (e0.split_at s).2] with hl1def
    have hl1len : l1.length = l.length + 1 := replace_at_two_length l i0 _ _ hi0
    have hl1drop : l1.drop (i0 + 1) = (e0.split_at s).2 :: l.drop (i0 + 1) :=
      window_replace_first l i0 _ _ hi0
    have heL : l1.getD (i0 + n) Ema.dummy =
        ((e0.split_at s).2 :: l.drop (i0 + 1)).getD (n - 1) Ema.dummy := by
      rw [show i0 + n = i0 + 1 + (n - 1) from by omega, ← getD_drop, hl1drop]
    have heLone : n = 1 → l1.getD (i0 + n) Ema.dummy = (e0.split_at s).2 := by
      intro hne1
      have h0 : (1 : Nat) - 1 = 0 := rfl
      rw [heL, hne1, h0, List.getD_cons_zero]
    have heLlast : 2 ≤ n →
        l1.getD (i0 + n) Ema.dummy = l.getD (i0 + (n - 1)) Ema.dummy := by
      intro hn2
      rw [heL, show n - 1 = n - 2 + 1 from by omega, List.getD_cons_succ, getD_drop,
        show i0 + 1 + (n - 2) = i0 + (n - 2 + 1) from by omega]
    have heLstartlt : (l1.getD (i0 + n) Ema.dummy).start < e := by
      rcases Nat.lt_or_ge n 2 with hn2 | hn2
      · rw [heLone (by omega)]
        exact hse
      · rw [heLlast hn2]
        exact hq0sel _ hlastmem
    have heLalign : (l1.getD (i0 + n) Ema.dummy).start % SE_PAGE_SIZE = 0 := by
      rcases Nat.lt_or_ge n 2 with hn2 | hn2
      · rw [heLone (by omega)]
        exact hs8
      · rw [heLlast hn2]
        exact halign _ (hsub _ hlastmem)
    rcases hinner with ⟨hne, hl2⟩ | ⟨hlt, hl2⟩
    · subst hl2
      constructor
      · rw [hl1drop, hselcons, hseltail]
        have htk : ((e0.split_at s).2 :: l.drop (i0 + 1)).take n =
            (e0.split_at s).2 :: (l.drop (i0 + 1)).take (n - 1) := by
          rw [show n = n - 1 + 1 from by omega, List.take_succ_cons]
          simp only [Nat.add_sub_cancel]
        rw [htk]
        exact List.Forall₂.cons ⟨rfl, rfl, rfl⟩
          (List.forall₂_same.mpr fun x _ => ⟨rfl, rfl, rfl⟩)
      · intro a
        exact page_view_replace_split l i0 e0 s hi0 he0 hs1 hsee0 he0align hs8 a
    · subst hl2
      constructor
      · have hwin := window_replace_last l1 (i0 + 1) n
          ((l1.getD (i0 + n) Ema.dummy).split_at e).1
          ((l1.getD (i0 + n) Ema.dummy).split_at e).2 hn1 (by rw [hl1len]; omega)
        rw [show i0 + 1 + n - 1 = i0 + n from by omega] at hwin
        rw [hwin, hl1drop, hselcons, hseltail]
        rcases Nat.lt_or_ge n 2 with hn2 | hn2
        · have hne1 : n = 1 := by omega
          rw [heLone hne1, show n - 1 = 0 from by omega, List.take_zero, List.nil_append]
          exact List.Forall₂.cons ⟨rfl, rfl, rfl⟩ List.Forall₂.nil
        · rw [heLlast hn2]
          have htk2 : ((e0.split_at s).2 :: l.drop (i0 + 1)).take (n - 1) =
              (e0.split_at s).2 :: (l.drop (i0 + 1)).take (n - 2) := by
            rw [show n - 1 = n - 2 + 1 from by omega, List.take_succ_cons]
          have hrhs : (l.drop (i0 + 1)).take (n - 1) =
              (l.drop (i0 + 1)).take (n - 2) ++ [l.getD (i0 + (n - 1)) Ema.dummy] := by
            have hd := take_last_decomp Ema.dummy (l.drop (i0 + 1)) (n - 2)
              (by rw [List.length_drop]; omega)
            rw [getD_drop, show i0 + 1 + (n - 2) = i0 + (n - 1) from by omega] at hd
            conv_lhs => rw [show n - 1 = n - 2 + 1 from by omega]
            rw [hd]
          rw [htk2, hrhs, List.cons_append]
          refine List.Forall₂.cons ⟨rfl, rfl, rfl⟩ (List.rel_append ?_ ?_)
          · exact List.forall₂_same.mpr fun x _ => ⟨rfl, rfl, rfl⟩
          · exact List.Forall₂.cons ⟨rfl, rfl, rfl⟩ List.Forall₂.nil
      · intro a
        have h2x := page_view_replace_split l1 (i0 + n) (l1.getD (i0 + n) Ema.dummy) e
          (by rw [hl1len]; omega) rfl heLstartlt hlt heLalign he8 a
        have h1x := page_view_replace_split l i0 e0 s hi0 he0 hs1 hsee0 he0align hs8 a
        rw [← hl1def] at h1x
        exact h2x.trans h1x

/-- Helper: a Forall₂ relation lets every member of the right list be
matched by a member of the left list. -/
theorem forall₂_exists_of_mem_right {α β : Type} {r : α → β → Prop}
    {ys : List α} {xs : List β} (h : List.Forall₂ r ys xs) :
    ∀ x ∈ xs, ∃ y ∈ ys, r y x := by
  induction h with
  | nil =>
      intro x hx
      cases hx
  | cons hr ht ih =>
      intro x hx
      rcases List.mem_cons.mp hx with hxe | hx2
      · exact ⟨_, List.mem_cons_self _ _, hxe ▸ hr⟩
      · obtain ⟨y, hy, hry⟩ := ih x hx2
        exact ⟨y, List.mem_cons_of_mem _ hy, hry⟩

/-- Helper: an element whose whole prefix satisfies the predicate lies
in the takeWhile. -/
theorem getD_mem_takeWhile {α : Type} (d : α) (p : α → Bool) :
    ∀ (l : List α) (j : Nat), j < l.length →
      (∀ k, k ≤ j → p (l.getD k d) = true) → l.getD j d ∈ l.takeWhile p := by
  intro l
  induction l with
  | nil =>
      intro j hj _
      exact absurd hj (by simp)
  | cons a t ih =>
      intro j hj hall
      have hpa : p a = true := by
        have := hall 0 (Nat.zero_le j)
        simpa using this
      cases j with
      | zero =>
          rw [List.takeWhile_cons, if_pos hpa]
          simp [List.getD_cons_zero]
      | succ j2 =>
          rw [List.takeWhile_cons, if_pos hpa]
          simp only [List.getD_cons_succ]
          refine List.mem_cons_of_mem a (ih j2 (by simpa using hj) ?_)
          intro k hk
          have := hall (k + 1) (by omega)
          simpa using this

/-- Helper: in a sorted EMA list the earlier EMA ends at or before the
later one starts. -/
theorem sorted_getD_le {l : List Ema}
    (hsort : l.Pairwise fun a b => a.end_addr ≤ b.start)
    (a b : Nat) (ha : a < l.length) (hb : b < l.length) (hab : a < b) :
    (l.getD a Ema.dummy).end_addr ≤ (l.getD b Ema.dummy).start := by
  have h := List.pairwise_iff_get.mp hsort ⟨a, ha⟩ ⟨b, hb⟩ (Fin.mk_lt_mk.mpr hab)
  rw [List.getD_eq_getElem?_getD, List.getElem?_eq_getElem ha,
    List.getD_eq_getElem?_getD, List.getElem?_eq_getElem hb]
  simp only [Option.getD_some]
  simpa [List.get_eq_getElem] using h

/-- Helper: an EMA starts at or before its end. -/
theorem ema_start_le_end (x : Ema) : x.start ≤ x.end_addr := by
  unfold Ema.end_addr
  omega

/-- Helper: in a sorted list, every EMA overlapping `[s, e)` is located
by the range search: it lies in the selected window. -/
theorem overlap_mem_sel (l : List Ema) (s e : Nat) (x : Ema)
    (hsort : l.Pairwise fun a b => a.end_addr ≤ b.start)
    (hx : x ∈ l) (ho1 : x.start < e) (ho2 : s < x.end_addr) :
    x ∈ (l.drop (l.findIdx fun y => !y.lower_than_addr s)).takeWhile
      fun y => !y.higher_than_addr e := by
  obtain ⟨j, hj, hxj⟩ := List.mem_iff_getElem.mp hx
  have hgdj : l.getD j Ema.dummy = x := by
    rw [List.getD_eq_getElem?_getD, List.getElem?_eq_getElem hj]
    exact hxj
  have hi0j : (l.findIdx fun y => !y.lower_than_addr s) ≤ j := by
    by_contra hcon
    push_neg at hcon
    have hnp := @List.not_of_lt_findIdx _ (fun y => !y.lower_than_addr s) l j hcon
    simp [Ema.lower_than_addr, hxj] at hnp
    omega
  have hj2 : j - (l.findIdx fun y => !y.lower_than_addr s) <
      (l.drop (l.findIdx fun y => !y.lower_than_addr s)).length := by
    rw [List.length_drop]
    omega
  have hgd : (l.drop (l.findIdx fun y => !y.lower_than_addr s)).getD
      (j - (l.findIdx fun y => !y.lower_than_addr s)) Ema.dummy = x := by
    rw [getD_drop,
      show (l.findIdx fun y => !y.lower_than_addr s) +
        (j - (l.findIdx fun y => !y.lower_than_addr s)) = j from by omega]
    exact hgdj
  have hall : ∀ k, k ≤ j - (l.findIdx fun y => !y.lower_than_addr s) →
      ((fun y => !y.higher_than_addr e)
        ((l.drop (l.findIdx fun y => !y.lower_than_addr s)).getD k Ema.dummy)) = true := by
    intro k hk
    rw [getD_drop]
    have hikl : (l.findIdx fun y => !y.lower_than_addr s) + k < l.length := by omega
    have hstartlt : (l.getD ((l.findIdx fun y => !y.lower_than_addr s) + k) Ema.dummy).start
        < e := by
      rcases Nat.lt_or_ge ((l.findIdx fun y => !y.lower_than_addr s) + k) j with hlt | hge
      · have hle := sorted_getD_le hsort _ j hikl hj hlt
        have hse := ema_start_le_end
          (l.getD ((l.findIdx fun y => !y.lower_than_addr s) + k) Ema.dummy)
        rw [hgdj] at hle
        have := ema_start_le_end x
        omega
      · have hjk : (l.findIdx fun y => !y.lower_than_addr s) + k = j := by omega
        rw [hjk, hgdj]
        exact ho1
    simp only [Ema.higher_than_addr, Bool.not_eq_true', decide_eq_false_iff_not]
    omega
  have := getD_mem_takeWhile Ema.dummy (fun y => !y.higher_than_addr e)
    (l.drop (l.findIdx fun y => !y.lower_than_addr s))
    (j - (l.findIdx fun y => !y.lower_than_addr s)) hj2 hall
  rw [hgd] at this
  exact this

/-- Helper: a successful argument validation forces a page-aligned
address and a non-zero page-multiple length. -/
theorem check_ok_facts (L : MmLayoutModel) (addr len : Nat) (typ : RangeType)
    (h : VmMgr.check L addr len = Except.ok typ) :
    addr % SE_PAGE_SIZE = 0 ∧ len ≠ 0 ∧ len % SE_PAGE_SIZE = 0 := by
  unfold VmMgr.check at h
  by_cases h1 : addr > 0 ∧ ¬(is_page_aligned addr ∧ is_within_enclave L addr len)
  · rw [if_pos h1] at h
    cases h
  · rw [if_neg h1] at h
    by_cases h2 : ¬(len ≠ 0 ∧ len % SE_PAGE_SIZE = 0)
    · rw [if_pos h2] at h
      cases h
    · refine ⟨?_, not_not.mp h2⟩
      by_cases h0 : addr = 0
      · rw [h0]
        simp
      · have hgt : addr > 0 := Nat.pos_of_ne_zero h0
        have h3 := not_not.mp (not_and.mp h1 hgt)
        have h4 : is_page_aligned addr = true := h3.1
        simp [is_page_aligned] at h4
        exact h4

/-- Helper: successful options validation forces a non-zero
page-multiple length and a page-aligned requested address. -/
theorem ema_options_check_facts (opts : EmaOptions)
    (h : EmaOptions.check opts = Except.ok ()) :
    opts.length ≠ 0 ∧ opts.length % SE_PAGE_SIZE = 0 ∧
      (opts.addr.getD 0) % SE_PAGE_SIZE = 0 := by
  simp only [EmaOptions.check] at h
  by_cases h1 : (((if opts.alloc_flags.commit_now = true then 1 else 0) +
      if opts.alloc_flags.commit_on_demand = true then 1 else 0) +
      if opts.alloc_flags.reserved = true then 1 else 0) ≠ 1
  · rw [if_pos h1] at h
    cases h
  · rw [if_neg h1] at h
    by_cases h2 : opts.alloc_flags.growsup = true ∧ opts.alloc_flags.growsdown = true
    · rw [if_pos h2] at h
      cases h
    · rw [if_neg h2] at h
      by_cases h3 : (opts.alloc_flags.growsup = true ∨ opts.alloc_flags.growsdown = true) ∧
          ¬opts.alloc_flags.commit_on_demand = true
      · rw [if_pos h3] at h
        cases h
      · rw [if_neg h3] at h
        by_cases h4 : opts.length = 0 ∨ opts.length % SE_PAGE_SIZE ≠ 0
        · rw [if_pos h4] at h
          cases h
        · rw [if_neg h4] at h
          by_cases h5 : opts.addr.getD 0 % SE_PAGE_SIZE ≠ 0
          · rw [if_pos h5] at h
            cases h
          · push_neg at h4 h5
            exact ⟨h4.1, h4.2, h5⟩

/-- Helper: a search without split returns the list unchanged. -/
theorem search_nosplit_list (l : List Ema) (s e : Nat) (c : Bool) (l2 : List Ema)
    (i n : Nat)
    (h : search_ema_range l s e c false = Option.some (l2, i, n)) : l2 = l := by
  simp only [search_ema_range] at h
  cases hget : l[(l.findIdx fun x => !x.lower_than_addr s)]? with
  | none =>
      rw [hget] at h
      cases h
  | some e0 =>
      rw [hget] at h
      simp only [] at h
      by_cases h1 : e0.higher_than_addr e = true
      · rw [if_pos h1] at h
        cases h
      · rw [if_neg h1] at h
        by_cases h2 : (c && !adjacent_ok ((l.drop
            (l.findIdx fun x => !x.lower_than_addr s)).takeWhile
              fun x => !x.higher_than_addr e)) = true
        · rw [if_pos h2] at h
          cases h
        · rw [if_neg h2] at h
          rw [if_neg (by simp)] at h
          simp only [Option.some.injEq, Prod.mk.injEq] at h
          exact h.1.symm

/-- C4 counterexample: modify_perms over a committed EMA followed by a
RESERVED EMA fails its check loop with EACCES, yet the RTS list has
been mutated: the first EMA was split, leaving three EMAs where the
pre-call state had two.  The claim's "no EMA in the range has been
mutated" does not hold at the list level. -/
theorem C4_counterexample :
    (VmMgr.modify_perms layoutA vm_perms 0x21000 0x2000 ProtFlags.R).1 =
      Except.error OsError.EACCES ∧
    (VmMgr.modify_perms layoutA vm_perms 0x21000 0x2000 ProtFlags.R).2.get_list
      RangeType.Rts ≠ vm_perms.get_list RangeType.Rts := by
  exact ⟨rfl, by decide⟩

/-- C4 (amended): in apply_commands — the engine of commit, uncommit,
modify_perms and modify_type — every check over the located window runs
before any command: if any check fails the operation returns that error
with the (possibly split) list installed and no command applied, and
the split is invisible to the per-address page view: every address
keeps its flags, page info, allocator tag and commit bit.  If every
check passes, the commands are applied to the window. -/
theorem C4_amended (L : MmLayoutModel) (m : VmMgr) (addr size : Nat)
    (split : Bool) (check : Ema → Except OsError Unit)
    (command : Ema → Except OsError Ema)
    (typ : RangeType) (l2 : List Ema) (i n : Nat)
    (hck : VmMgr.check L addr size = Except.ok typ)
    (hsearch : search_ema_range (m.get_list typ) addr (addr + size) true split =
      Option.some (l2, i, n))
    (halign : ∀ x ∈ m.get_list typ, x.start % SE_PAGE_SIZE = 0) :
    (∀ err, run_checks check ((l2.drop i).take n) = Except.error err →
      VmMgr.apply_commands L m addr size split check command =
        (Except.error err, m.set_list typ l2) ∧
      ∀ a, page_view l2 a = page_view (m.get_list typ) a) ∧
    (run_checks check ((l2.drop i).take n) = Except.ok () →
      VmMgr.apply_commands L m addr size split check command =
        ((run_commands command ((l2.drop i).take n)).1,
          m.set_list typ (l2.take i ++ (run_commands command ((l2.drop i).take n)).2 ++
            l2.drop (i + n)))) := by
  obtain ⟨ha8, hsz, hl8⟩ := check_ok_facts L addr size typ hck
  have he8 : (addr + size) % SE_PAGE_SIZE = 0 := by
    have h1 := ha8
    have h2 := hl8
    simp only [SE_PAGE_SIZE] at h1 h2 ⊢
    omega
  have hpv : ∀ a, page_view l2 a = page_view (m.get_list typ) a := by
    cases split with
    | false =>
        have hl := search_nosplit_list _ _ _ _ _ _ _ hsearch
        intro a
        rw [hl]
    | true =>
        exact (search_split_spec _ _ _ _ _ _ _ hsearch (by omega) halign ha8 he8).2
  unfold VmMgr.apply_commands
  rw [hck]
  simp only []
  rw [hsearch]
  simp only []
  constructor
  · intro err herr
    rw [herr]
    simp only []
    exact ⟨by trivial, hpv⟩
  · intro hok
    rw [hok]

/-- C4 witness: the amended theorem applied to the concrete
modify_perms counterexample state: the failed check loop returns EACCES
with the split-but-unmutated three-EMA list installed. -/
theorem C4_amended_witness :
    VmMgr.apply_commands layoutA vm_perms 0x21000 0x2000 true Ema.modify_perm_check
      (fun x => Except.ok (x.modify_perm ProtFlags.R)) =
      (Except.error OsError.EACCES, vm_perms.set_list RangeType.Rts
        [(ema_committed.split_at 0x21000).1, (ema_committed.split_at 0x21000).2,
          ema_reserved]) :=
  ((C4_amended layoutA vm_perms 0x21000 0x2000 true Ema.modify_perm_check
    (fun x => Except.ok (x.modify_perm ProtFlags.R)) RangeType.Rts
    [(ema_committed.split_at 0x21000).1, (ema_committed.split_at 0x21000).2, ema_reserved]
    1 2 rfl rfl (by decide)).1 OsError.EACCES rfl).1

/-- C3 counterexample: a FIXED alloc over the second page of a
two-page COMMIT_ON_DEMAND EMA fails with EEXIST as claimed, but the
list is not left identical: the straddling EMA was split in two.  The
claim's "the EMA range list is left identical to its pre-call state (no
EMA split...)" does not hold. -/
theorem C3_counterexample :
    (VmMgr.alloc layoutA vm_straddle opts_fixed RangeType.Rts).1 =
      Except.error OsError.EEXIST ∧
    (VmMgr.alloc layoutA vm_straddle opts_fixed RangeType.Rts).2.get_list
      RangeType.Rts ≠ vm_straddle.get_list RangeType.Rts := by
  exact ⟨rfl, by decide⟩

/-- C3 (amended): a FIXED alloc at a requested address whose range
overlaps an EMA that is not RESERVED (or whose allocator tag differs)
fails with EEXIST; the list may keep the boundary splits made while
locating the range, but no page attribute changes: every address keeps
its flags, page info, allocator tag and commit bit. -/
theorem C3_amended (L : MmLayoutModel) (m : VmMgr) (opts : EmaOptions)
    (typ : RangeType) (addr : Nat) (x : Ema)
    (hchk : EmaOptions.check opts = Except.ok ())
    (haddr : opts.addr = Option.some addr)
    (hfixed : opts.alloc_flags.fixed = true)
    (hsort : (m.get_list typ).Pairwise fun a b => a.end_addr ≤ b.start)
    (halign : ∀ y ∈ m.get_list typ, y.start % SE_PAGE_SIZE = 0)
    (hx : x ∈ m.get_list typ)
    (ho1 : x.start < addr + opts.length) (ho2 : addr < x.end_addr)
    (hbad : ¬(x.alloc_flags.reserved = true ∧ x.alloc = opts.alloc)) :
    ∃ l1, VmMgr.alloc L m opts typ = (Except.error OsError.EEXIST, m.set_list typ l1) ∧
      ∀ a, page_view l1 a = page_view (m.get_list typ) a := by
  obtain ⟨hlen0, hlen8, haddr8⟩ := ema_options_check_facts opts hchk
  rw [haddr] at haddr8
  simp only [Option.getD_some] at haddr8
  have he8 : (addr + opts.length) % SE_PAGE_SIZE = 0 := by
    have h1 := haddr8
    have h2 := hlen8
    simp only [SE_PAGE_SIZE] at h1 h2 ⊢
    omega
  unfold VmMgr.alloc
  rw [hchk]
  simp only []
  rw [haddr]
  simp only []
  obtain ⟨r0, hr0⟩ := search_isSome_of_overlap (m.get_list typ) addr
    (addr + opts.length) false hsort ⟨x, hx, ho1, ho2⟩
  rw [hr0]
  simp only []
  unfold clear_reserved_emas
  cases hs1 : search_ema_range (m.get_list typ) addr (addr + opts.length) true true with
  | none =>
      simp only []
      rw [hfixed]
      simp only [if_true]
      exact ⟨m.get_list typ, rfl, fun a => rfl⟩
  | some r1 =>
      obtain ⟨l', i, n⟩ := r1
      simp only []
      have hspec := search_split_spec (m.get_list typ) addr (addr + opts.length) true l'
        i n hs1 (by omega) halign haddr8 he8
      have hxsel := overlap_mem_sel (m.get_list typ) addr (addr + opts.length) x hsort
        hx ho1 ho2
      obtain ⟨y, hyw, hyattr⟩ := forall₂_exists_of_mem_right hspec.1 x hxsel
      have hally : ¬((l'.drop i).take n).all
          (fun z => z.alloc_flags.reserved && (z.alloc == opts.alloc)) = true := by
        intro hcon
        have hyy := List.all_eq_true.mp hcon y hyw
        rw [hyattr.1, hyattr.2.2] at hyy
        simp at hyy
        exact hbad ⟨hyy.1, hyy.2⟩
      rw [if_neg hally]
      simp only []
      rw [hfixed]
      simp only [if_true]
      exact ⟨l', rfl, hspec.2⟩

/-- C3 witness: the amended theorem applied to the concrete straddling
state: the FIXED request over a COMMIT_ON_DEMAND EMA fails with
EEXIST. -/
theorem C3_amended_witness :
    (VmMgr.alloc layoutA vm_straddle opts_fixed RangeType.Rts).1 =
      Except.error OsError.EEXIST := by
  obtain ⟨l1, heq, _⟩ := C3_amended layoutA vm_straddle opts_fixed RangeType.Rts
    0x21000 ema_straddle rfl rfl rfl (by decide) (by decide) (by decide) (by decide)
    (by decide) (by decide)
  rw [heq]
